import Mathlib

/-!
Verification of the V20 breakout-detection pipeline (`src/v20.py`).

The pipeline consumes a date-ordered OHLC bar series for one symbol and
produces one summary row per qualifying "green" run.  We embed the pandas
code as functions over `List`s: each DataFrame is a list of row records,
each stage adds derived columns (a new record type) or drops rows.
Prices are exact rationals; the float outcomes of dividing by a zero low
(`inf` / `-inf` / `nan` in numpy) are modelled by the `PDiff` type.
-/

/-- One OHLC bar for a symbol: a row of the fetched DataFrame.  The date
index is modelled as a natural-number key; prices are exact rationals. -/
structure Bar where
  date : Nat
  Open : ℚ
  High : ℚ
  Low : ℚ
  Close : ℚ
  Symbol : String
  deriving DecidableEq

/-- Value of the float expression `(high - low) / low * 100`: either a
finite rational or one of the non-finite IEEE outcomes (`inf`, `-inf`,
`nan`) that numpy produces when `low = 0`. -/
inductive PDiff where
  | val (q : ℚ)
  | posInf
  | negInf
  | nan
  deriving DecidableEq

/-- The numpy comparison `p >= t` on a possibly non-finite value:
`inf >= t` is true, `-inf >= t` and `nan >= t` are false. -/
def PDiff.ge (p : PDiff) (t : ℚ) : Bool :=
  match p with
  | .val q => decide (t ≤ q)
  | .posInf => true
  | .negInf => false
  | .nan => false

/-- The expression `((highest_high - lowest_low) / lowest_low) * 100`
from `calculate_percentage_differences`, with IEEE semantics at
`lowest_low = 0` (numpy emits `inf` / `-inf` / `nan`, it does not raise). -/
def rangePct (lo hi : ℚ) : PDiff :=
  if lo = 0 then
    if hi - lo > 0 then PDiff.posInf
    else if hi - lo < 0 then PDiff.negInf
    else PDiff.nan
  else PDiff.val ((hi - lo) / lo * 100)

/-- Row after `mark_keywords`: the bar plus the `Keyword` column. -/
structure LabeledBar where
  bar : Bar
  Keyword : String
  deriving DecidableEq

/-- Row after `assign_groups`: adds the `GroupID` and `Group` columns. -/
structure GroupedBar where
  bar : Bar
  Keyword : String
  GroupID : Nat
  Group : String
  deriving DecidableEq

/-- Row after `calculate_percentage_differences`: adds the
`PercentageDifference` column. -/
structure PDBar where
  bar : Bar
  Keyword : String
  GroupID : Nat
  Group : String
  PercentageDifference : PDiff
  deriving DecidableEq

/-- Row after `identify_valid_groups`: adds the `ValidGroup` column
(the group name when the group qualifies, the empty string otherwise). -/
structure VBar where
  bar : Bar
  Keyword : String
  GroupID : Nat
  Group : String
  PercentageDifference : PDiff
  ValidGroup : String
  deriving DecidableEq

/-- Output row of `transform_valid_groups`. -/
structure Summary where
  Symbol : String
  LowestLow : ℚ
  HighestHigh : ℚ
  EarliestDate : Nat
  PercentageDifference : PDiff
  ValidGroup : String
  deriving DecidableEq

/-- Pandas `Series.min()` over a rational column (junk value on an empty
column; only ever applied to nonempty groups). -/
def qListMin : List ℚ → ℚ
  | [] => 0
  | x :: xs => xs.foldl min x

/-- Pandas `Series.max()` over a rational column. -/
def qListMax : List ℚ → ℚ
  | [] => 0
  | x :: xs => xs.foldl max x

/-- Pandas `Index.min()` over the date index. -/
def natListMin : List Nat → Nat
  | [] => 0
  | x :: xs => xs.foldl min x

/-- Pandas `Series.unique()`: the values of a column in order of first
occurrence (later duplicates are dropped). -/
def uniqueFirst {α : Type} [DecidableEq α] : List α → List α
  | [] => []
  | x :: xs => x :: (uniqueFirst xs).filter (fun y => y ≠ x)

/-- Python's substring test `needle in hay` on strings, over the
underlying character lists. -/
def occursIn (needle : List Char) : List Char → Bool
  | [] => needle.isEmpty
  | c :: rest => needle.isPrefixOf (c :: rest) || occursIn needle rest

/-- The test `'green' in group_name` from `identify_valid_groups`. -/
def hasGreen (s : String) : Bool := occursIn "green".data s.data

/-- The per-row lambda of `mark_keywords`:
`'green' if row['Open'] < row['Close'] else 'red'`. -/
def keywordOf (b : Bar) : String :=
  if b.Open < b.Close then "green" else "red"

/-- `mark_keywords`: add the `Keyword` column row by row. -/
def mark_keywords (stock_data : List Bar) : List LabeledBar :=
  stock_data.map (fun b => ⟨b, keywordOf b⟩)

/-- Scan underlying `assign_groups`.  The pandas expression
`(Keyword != Keyword.shift()).cumsum()` assigns to each row the number of
keyword changes up to and including it, where the first row always counts
as a change (comparison against the shifted-in NaN is True).  `prev` is
the keyword of the previous row (`none` at the start), `n` the running
counter. -/
def assignGo : Option String → Nat → List LabeledBar → List GroupedBar
  | _, _, [] => []
  | prev, n, lb :: rest =>
    let n' := if prev = some lb.Keyword then n else n + 1
    ⟨lb.bar, lb.Keyword, n', lb.Keyword ++ "_" ++ Nat.repr n'⟩ ::
      assignGo (some lb.Keyword) n' rest

/-- `assign_groups`: add the `GroupID` column (cumulative sum of keyword
changes) and the `Group` column (`Keyword.str.cat(GroupID.astype(str),
sep='_')`). -/
def assign_groups (stock_data : List LabeledBar) : List GroupedBar :=
  assignGo none 0 stock_data

/-- `calculate_percentage_differences`: for each `GroupID` in order of
first occurrence, compute the group's range percentage and extend the
accumulator list with one copy per member row; the list is then assigned
positionally as the `PercentageDifference` column. -/
def calculate_percentage_differences (stock_data : List GroupedBar) : List PDBar :=
  let pds := (uniqueFirst (stock_data.map (·.GroupID))).flatMap (fun gid =>
    let group_data := stock_data.filter (fun r => r.GroupID = gid)
    List.replicate group_data.length
      (rangePct (qListMin (group_data.map (·.bar.Low)))
        (qListMax (group_data.map (·.bar.High)))))
  (stock_data.zip pds).map (fun p => ⟨p.1.bar, p.1.Keyword, p.1.GroupID, p.1.Group, p.2⟩)

/-- The lookup `group_data['PercentageDifference'].iloc[0]` after
filtering rows by group name (junk value on an empty filter result;
only ever reached for names actually present). -/
def firstPDiff (rows : List PDBar) (name : String) : PDiff :=
  match rows.filter (fun r => r.Group = name) with
  | [] => PDiff.nan
  | r :: _ => r.PercentageDifference

/-- The `valid_groups` list built by `identify_valid_groups`: group names
containing `'green'` whose first member row's percentage difference is at
least the threshold.  The source reads the threshold from the module
constant `PERCENTAGE_THRESHOLD`; it is exposed here as a parameter. -/
def valid_groups (thr : ℚ) (stock_data : List PDBar) : List String :=
  (uniqueFirst (stock_data.map (·.Group))).filter (fun name =>
    hasGreen name && (firstPDiff stock_data name).ge thr)

/-- `identify_valid_groups`: add the `ValidGroup` column via
`Group.apply(lambda x: x if x in valid_groups else '')`. -/
def identify_valid_groups (thr : ℚ) (stock_data : List PDBar) : List VBar :=
  let vg := valid_groups thr stock_data
  stock_data.map (fun r =>
    ⟨r.bar, r.Keyword, r.GroupID, r.Group, r.PercentageDifference,
      if r.Group ∈ vg then r.Group else ""⟩)

/-- `remove_invalid_rows`: keep the rows whose `ValidGroup` is nonempty. -/
def remove_invalid_rows (stock_data : List VBar) : List VBar :=
  stock_data.filter (fun r => r.ValidGroup ≠ "")

/-- The lookup `group_data['Symbol'].iloc[0]`. -/
def firstSymbol (rows : List VBar) : String :=
  match rows with
  | [] => ""
  | r :: _ => r.bar.Symbol

/-- The lookup `group_data['PercentageDifference'].iloc[0]` on surviving
rows. -/
def firstPDiffV (rows : List VBar) : PDiff :=
  match rows with
  | [] => PDiff.nan
  | r :: _ => r.PercentageDifference

/-- `transform_valid_groups`: one output row per nonempty `ValidGroup`
value, in order of first occurrence, carrying the group's symbol, lowest
low, highest high, earliest date and (broadcast) percentage difference. -/
def transform_valid_groups (stock_data : List VBar) : List Summary :=
  (uniqueFirst (stock_data.map (·.ValidGroup))).filterMap (fun group_name =>
    if group_name = "" then none
    else
      let group_data := stock_data.filter (fun r => r.ValidGroup = group_name)
      some ⟨firstSymbol group_data,
        qListMin (group_data.map (·.bar.Low)),
        qListMax (group_data.map (·.bar.High)),
        natListMin (group_data.map (·.bar.date)),
        firstPDiffV group_data,
        group_name⟩)

/-- The module constant `PERCENTAGE_THRESHOLD = 20`. -/
def PERCENTAGE_THRESHOLD : ℚ := 20

/-- The per-symbol stage chain of `main`: keywords, groups, percentage
differences, valid-group marking, row removal, summarization. -/
def runPipeline (thr : ℚ) (bars : List Bar) : List Summary :=
  transform_valid_groups (remove_invalid_rows (identify_valid_groups thr
    (calculate_percentage_differences (assign_groups (mark_keywords bars)))))

/-- The pipeline as invoked by the source, at the module threshold. -/
def runPipelineDefault (bars : List Bar) : List Summary :=
  runPipeline PERCENTAGE_THRESHOLD bars

/-- The accumulation `combined_data = pd.concat([combined_data, stock_data])`
of `main` over a list of per-symbol bar series (the case in which every
fetch succeeds). -/
def processSeries (thr : ℚ) (series : List (List Bar)) : List Summary :=
  series.foldl (fun acc bars => acc ++ runPipeline thr bars) []

/-- The symbol loop of `main` with the fetch collaborator abstracted as a
fallible function.  The loop body has no exception handler, so a fetch
failure propagates and aborts the whole loop: no combined result is
produced. -/
def mainLoop (thr : ℚ) (fetch : String → Except String (List Bar)) :
    List String → Except String (List Summary)
  | [] => Except.ok []
  | s :: rest =>
    match fetch s with
    | Except.error e => Except.error e
    | Except.ok bars =>
      match mainLoop thr fetch rest with
      | Except.error e => Except.error e
      | Except.ok out => Except.ok (runPipeline thr bars ++ out)

/-- Specification-side run segmentation: maximal blocks of equal keyword. -/
def splitRuns : List LabeledBar → List (List LabeledBar)
  | [] => []
  | x :: xs =>
    (x :: xs.takeWhile (fun y => y.Keyword = x.Keyword)) ::
      splitRuns (xs.dropWhile (fun y => y.Keyword = x.Keyword))
termination_by l => l.length
decreasing_by
  simp only [List.length_cons, Nat.lt_succ_iff]
  exact (List.dropWhile_suffix _).length_le

theorem splitRuns_flatten (l : List LabeledBar) : (splitRuns l).flatten = l := by
  induction l using splitRuns.induct with
  | case1 => simp [splitRuns]
  | case2 x xs ih =>
    rw [splitRuns]
    simp only [List.flatten_cons, ih, List.cons_append]
    rw [List.takeWhile_append_dropWhile]

theorem splitRuns_ne_nil (l : List LabeledBar) : ∀ r ∈ splitRuns l, r ≠ [] := by
  induction l using splitRuns.induct with
  | case1 => simp [splitRuns]
  | case2 x xs ih =>
    rw [splitRuns]
    intro r hr
    rcases List.mem_cons.mp hr with h | h
    · subst h; simp
    · exact ih r h

/-- Keyword of the first bar of a run (junk on an empty run). -/
def runKw : List LabeledBar → String
  | [] => ""
  | x :: _ => x.Keyword

theorem splitRuns_const_kw (l : List LabeledBar) :
    ∀ r ∈ splitRuns l, ∀ y ∈ r, y.Keyword = runKw r := by
  induction l using splitRuns.induct with
  | case1 => simp [splitRuns]
  | case2 x xs ih =>
    rw [splitRuns]
    intro r hr y hy
    rcases List.mem_cons.mp hr with h | h
    · subst h
      rcases List.mem_cons.mp hy with h' | h'
      · subst h'; rfl
      · have := List.mem_takeWhile_imp h'
        simp only [decide_eq_true_eq] at this
        simpa [runKw] using this
    · exact ih r h y hy

theorem head_dropWhile_kw (x : LabeledBar) (xs : List LabeledBar) :
    ∀ z ∈ (xs.dropWhile (fun y => y.Keyword = x.Keyword)).head?,
      z.Keyword ≠ x.Keyword := by
  intro z hz
  have h := List.head?_dropWhile_not (fun y => decide (y.Keyword = x.Keyword)) xs
  cases hh : (xs.dropWhile (fun y => decide (y.Keyword = x.Keyword))).head? with
  | none => rw [hh] at hz; exact absurd hz (by simp)
  | some w =>
    rw [hh] at h hz
    simp only [Option.mem_def, Option.some.injEq] at hz
    subst hz
    simpa using h

/-- Specification-side view of `assign_groups`: blocks of runs, the
j-th block (counting from `n + 1`) annotated with its run id. -/
def annotate : Nat → List (List LabeledBar) → List GroupedBar
  | _, [] => []
  | n, r :: rest =>
    r.map (fun lb => ⟨lb.bar, lb.Keyword, n + 1, lb.Keyword ++ "_" ++ Nat.repr (n + 1)⟩) ++
      annotate (n + 1) rest

theorem assignGo_const (c : String) (t : List LabeledBar)
    (ht : ∀ y ∈ t, y.Keyword = c) (rest : List LabeledBar) (n : Nat) :
    assignGo (some c) n (t ++ rest) =
      t.map (fun lb => ⟨lb.bar, lb.Keyword, n, lb.Keyword ++ "_" ++ Nat.repr n⟩) ++
        assignGo (some c) n rest := by
  induction t with
  | nil => simp
  | cons y t iht =>
    have hy : y.Keyword = c := ht y (List.mem_cons_self y t)
    have ht' : ∀ z ∈ t, z.Keyword = c := fun z hz => ht z (List.mem_cons_of_mem y hz)
    simp [assignGo, hy, iht ht']

theorem assignGo_splitRuns (l : List LabeledBar) :
    ∀ prev n, (∀ z ∈ l.head?.map LabeledBar.Keyword, prev ≠ some z) →
      assignGo prev n l = annotate n (splitRuns l) := by
  induction l using splitRuns.induct with
  | case1 => intro prev n _; simp [splitRuns, assignGo, annotate]
  | case2 x xs ih =>
    intro prev n hprev
    have hne : ¬ prev = some x.Keyword := hprev x.Keyword (by simp)
    have htw : ∀ y ∈ xs.takeWhile (fun y => y.Keyword = x.Keyword), y.Keyword = x.Keyword := by
      intro y hy
      have := List.mem_takeWhile_imp hy
      simpa using this
    have hdrop : ∀ z ∈ (xs.dropWhile (fun y => y.Keyword = x.Keyword)).head?.map
        LabeledBar.Keyword, some x.Keyword ≠ some z := by
      intro z hz
      rcases Option.map_eq_some'.mp hz with ⟨w, hw, hwk⟩
      have hne' := head_dropWhile_kw x xs w (by simp [hw])
      intro hc
      have hz2 : x.Keyword = z := Option.some.inj hc
      exact hne' (hwk.trans hz2.symm)
    have hsplit : xs = xs.takeWhile (fun y => y.Keyword = x.Keyword) ++
        xs.dropWhile (fun y => y.Keyword = x.Keyword) :=
      (List.takeWhile_append_dropWhile _ _).symm
    rw [splitRuns]
    simp only [assignGo, if_neg hne, annotate, List.map_cons]
    conv_lhs => rw [hsplit]
    rw [assignGo_const x.Keyword _ htw _ (n + 1)]
    rw [ih (some x.Keyword) (n + 1) hdrop]
    simp

theorem assign_groups_eq_annotate (l : List LabeledBar) :
    assign_groups l = annotate 0 (splitRuns l) := by
  apply assignGo_splitRuns
  intro z _
  simp

/-- Lowest low of a run's member bars. -/
def runLow (r : List LabeledBar) : ℚ := qListMin (r.map (·.bar.Low))

/-- Highest high of a run's member bars. -/
def runHigh (r : List LabeledBar) : ℚ := qListMax (r.map (·.bar.High))

/-- Range percentage of a run. -/
def runPD (r : List LabeledBar) : PDiff := rangePct (runLow r) (runHigh r)

/-- Earliest date of a run's member bars. -/
def runDate (r : List LabeledBar) : Nat := natListMin (r.map (·.bar.date))

/-- Symbol of a run's first member bar. -/
def runSym : List LabeledBar → String
  | [] => ""
  | x :: _ => x.bar.Symbol

/-- Specification-side view of the data after
`calculate_percentage_differences`: every member row of a run carries
that run's range percentage. -/
def annotateP : Nat → List (List LabeledBar) → List PDBar
  | _, [] => []
  | n, r :: rest =>
    r.map (fun lb =>
      ⟨lb.bar, lb.Keyword, n + 1, lb.Keyword ++ "_" ++ Nat.repr (n + 1), runPD r⟩) ++
      annotateP (n + 1) rest

theorem annotate_gid_gt (runs : List (List LabeledBar)) :
    ∀ n, ∀ row ∈ annotate n runs, n < row.GroupID := by
  induction runs with
  | nil => intro n row h; simp [annotate] at h
  | cons r rest ih =>
    intro n row h
    rcases List.mem_append.mp h with h | h
    · rcases List.mem_map.mp h with ⟨lb, _, hlb⟩
      rw [← hlb]
      exact Nat.lt_succ_self n
    · exact Nat.lt_of_lt_of_le (Nat.lt_succ_self n) (Nat.le_of_lt (ih (n + 1) row h))

theorem annotate_filter_gid_le (runs : List (List LabeledBar)) (n m : Nat) (h : m ≤ n) :
    (annotate n runs).filter (fun r => r.GroupID = m) = [] := by
  rw [List.filter_eq_nil_iff]
  intro row hrow
  have := annotate_gid_gt runs n row hrow
  simp only [decide_eq_true_eq]
  omega

theorem uniqueFirst_mem_iff {α : Type} [DecidableEq α] (l : List α) (a : α) :
    a ∈ uniqueFirst l ↔ a ∈ l := by
  induction l with
  | nil => simp [uniqueFirst]
  | cons x xs ih =>
    rw [uniqueFirst]
    by_cases hax : a = x
    · subst hax; simp
    · simp only [List.mem_cons, hax, false_or]
      rw [List.mem_filter]
      simp [hax, ih]

theorem uniqueFirst_filter_ne {α : Type} [DecidableEq α] (l : List α) (a : α) (hl : a ∉ l) :
    (uniqueFirst l).filter (fun y => y ≠ a) = uniqueFirst l := by
  rw [List.filter_eq_self]
  intro b hb
  have hbl : b ∈ l := (uniqueFirst_mem_iff l b).mp hb
  simp only [ne_eq, decide_not, Bool.not_eq_true', decide_eq_false_iff_not]
  exact fun hba => hl (hba ▸ hbl)

theorem uniqueFirst_replicate_append {α : Type} [DecidableEq α] (a : α) (k : Nat)
    (hk : k ≠ 0) (l : List α) (hl : a ∉ l) :
    uniqueFirst (List.replicate k a ++ l) = a :: uniqueFirst l := by
  induction k with
  | zero => exact absurd rfl hk
  | succ k ihk =>
    rw [List.replicate_succ, List.cons_append, uniqueFirst]
    congr 1
    cases k with
    | zero =>
      rw [List.replicate_zero, List.nil_append]
      exact uniqueFirst_filter_ne l a hl
    | succ k2 =>
      rw [ihk (Nat.succ_ne_zero k2), List.filter_cons]
      rw [if_neg (by simp)]
      exact uniqueFirst_filter_ne l a hl

theorem zip_self_replicate {α β : Type} (l : List α) (b : β) :
    l.zip (List.replicate l.length b) = l.map (fun x => (x, b)) := by
  induction l with
  | nil => simp
  | cons x xs ih => simp [List.replicate_succ, ih]

theorem annotate_block_gid (n : Nat) (r : List LabeledBar) :
    ∀ row ∈ r.map (fun lb =>
      (⟨lb.bar, lb.Keyword, n + 1, lb.Keyword ++ "_" ++ Nat.repr (n + 1)⟩ : GroupedBar)),
      row.GroupID = n + 1 := by
  intro row h
  rcases List.mem_map.mp h with ⟨lb, _, hlb⟩
  rw [← hlb]

theorem calc_annotate (runs : List (List LabeledBar)) :
    ∀ n, (∀ r ∈ runs, r ≠ []) →
      calculate_percentage_differences (annotate n runs) = annotateP n runs := by
  induction runs with
  | nil =>
    intro n _
    simp [annotate, annotateP, calculate_percentage_differences, uniqueFirst]
  | cons r rest ih =>
    intro n hne
    have hr : r ≠ [] := hne r (List.mem_cons_self r rest)
    have hrestne : ∀ q ∈ rest, q ≠ [] := fun q hq => hne q (List.mem_cons_of_mem r hq)
    have hblkgid := annotate_block_gid n r
    -- the GroupID column of the first block is constant `n + 1`
    have hgidmap : (annotate n (r :: rest)).map (·.GroupID) =
        List.replicate r.length (n + 1) ++ (annotate (n + 1) rest).map (·.GroupID) := by
      simp only [annotate, List.map_append, List.map_map]
      rw [show ((fun (x : GroupedBar) => x.GroupID) ∘ fun (lb : LabeledBar) =>
        (⟨lb.bar, lb.Keyword, n + 1, lb.Keyword ++ "_" ++ Nat.repr (n + 1)⟩ : GroupedBar)) =
          fun _ => n + 1 from rfl, List.map_const']
    -- `n + 1` does not occur among the later blocks' GroupIDs
    have hnotmem : (n + 1) ∉ (annotate (n + 1) rest).map (·.GroupID) := by
      intro h
      rcases List.mem_map.mp h with ⟨row, hrow, hg⟩
      have := annotate_gid_gt rest (n + 1) row hrow
      omega
    have hlen : r.length ≠ 0 := fun h => hr (List.length_eq_zero.mp h)
    have huf : uniqueFirst ((annotate n (r :: rest)).map (·.GroupID)) =
        (n + 1) :: uniqueFirst ((annotate (n + 1) rest).map (·.GroupID)) := by
      rw [hgidmap, uniqueFirst_replicate_append _ _ hlen _ hnotmem]
    -- filtering the whole table by the first block's GroupID returns the block
    have hfilterhead : (annotate n (r :: rest)).filter (fun x => x.GroupID = n + 1) =
        r.map (fun lb => ⟨lb.bar, lb.Keyword, n + 1, lb.Keyword ++ "_" ++ Nat.repr (n + 1)⟩) := by
      show ((r.map _ : List GroupedBar) ++ annotate (n + 1) rest).filter _ = _
      rw [List.filter_append, annotate_filter_gid_le rest (n + 1) (n + 1) (Nat.le_refl _),
        List.append_nil, List.filter_eq_self]
      intro row hrow
      simp [hblkgid row hrow]
    -- filtering the whole table by a later GroupID skips the first block
    have hfilterlater : ∀ g, n + 1 < g →
        (annotate n (r :: rest)).filter (fun x => x.GroupID = g) =
          (annotate (n + 1) rest).filter (fun x => x.GroupID = g) := by
      intro g hg
      show ((r.map _ : List GroupedBar) ++ annotate (n + 1) rest).filter _ = _
      rw [List.filter_append]
      have : (r.map (fun lb =>
          (⟨lb.bar, lb.Keyword, n + 1, lb.Keyword ++ "_" ++ Nat.repr (n + 1)⟩ : GroupedBar))).filter
            (fun x => x.GroupID = g) = [] := by
        rw [List.filter_eq_nil_iff]
        intro row hrow
        have := hblkgid row hrow
        simp only [decide_eq_true_eq]
        omega
      rw [this, List.nil_append]
    -- price columns of the block coincide with those of the run
    have hlow : ((annotate n (r :: rest)).filter (fun x => x.GroupID = n + 1)).map (·.bar.Low) =
        r.map (·.bar.Low) := by
      rw [hfilterhead, List.map_map]
      rfl
    have hhigh : ((annotate n (r :: rest)).filter (fun x => x.GroupID = n + 1)).map (·.bar.High) =
        r.map (·.bar.High) := by
      rw [hfilterhead, List.map_map]
      rfl
    have hflen : ((annotate n (r :: rest)).filter (fun x => x.GroupID = n + 1)).length =
        r.length := by
      rw [hfilterhead, List.length_map]
    -- the percentage list decomposes blockwise
    have hpds : (uniqueFirst ((annotate n (r :: rest)).map (·.GroupID))).flatMap (fun gid =>
        List.replicate ((annotate n (r :: rest)).filter (fun x => x.GroupID = gid)).length
          (rangePct
            (qListMin (((annotate n (r :: rest)).filter (fun x => x.GroupID = gid)).map (·.bar.Low)))
            (qListMax (((annotate n (r :: rest)).filter (fun x => x.GroupID = gid)).map (·.bar.High))))) =
        List.replicate r.length (runPD r) ++
          (uniqueFirst ((annotate (n + 1) rest).map (·.GroupID))).flatMap (fun gid =>
            List.replicate ((annotate (n + 1) rest).filter (fun x => x.GroupID = gid)).length
              (rangePct
                (qListMin (((annotate (n + 1) rest).filter (fun x => x.GroupID = gid)).map (·.bar.Low)))
                (qListMax (((annotate (n + 1) rest).filter (fun x => x.GroupID = gid)).map (·.bar.High))))) := by
      rw [huf, List.flatMap_cons]
      congr 1
      · rw [hflen, hlow, hhigh]
        rfl
      · apply List.flatMap_congr
        intro g hg
        have hgmem : g ∈ (annotate (n + 1) rest).map (·.GroupID) :=
          (uniqueFirst_mem_iff _ _).mp hg
        rcases List.mem_map.mp hgmem with ⟨row, hrow, hgeq⟩
        have hggt : n + 1 < g := hgeq ▸ annotate_gid_gt rest (n + 1) row hrow
        rw [hfilterlater g hggt]
    simp only [calculate_percentage_differences]
    rw [hpds]
    rw [show annotate n (r :: rest) = (r.map (fun lb =>
      (⟨lb.bar, lb.Keyword, n + 1, lb.Keyword ++ "_" ++ Nat.repr (n + 1)⟩ : GroupedBar))) ++
        annotate (n + 1) rest from rfl]
    rw [List.zip_append (by simp)]
    rw [List.map_append]
    rw [show annotateP n (r :: rest) = r.map (fun lb =>
      (⟨lb.bar, lb.Keyword, n + 1, lb.Keyword ++ "_" ++ Nat.repr (n + 1), runPD r⟩ : PDBar)) ++
        annotateP (n + 1) rest from rfl]
    congr 1
    · rw [show List.replicate r.length (runPD r) = List.replicate (r.map (fun lb =>
        (⟨lb.bar, lb.Keyword, n + 1, lb.Keyword ++ "_" ++ Nat.repr (n + 1)⟩ : GroupedBar))).length
          (runPD r) by simp]
      rw [zip_self_replicate, List.map_map, List.map_map]
      rfl
    · exact ih (n + 1) hrestne

theorem digitChar_ne_g (n : Nat) : Nat.digitChar n ≠ 'g' := by
  rcases Nat.lt_or_ge n 16 with h16 | h16
  · interval_cases n <;> decide
  · unfold Nat.digitChar
    iterate 16 rw [if_neg (by omega)]
    decide

theorem mem_toDigitsCore (b : Nat) :
    ∀ fuel n ds c, c ∈ Nat.toDigitsCore b fuel n ds → c ∈ ds ∨ ∃ m, c = Nat.digitChar m := by
  intro fuel
  induction fuel with
  | zero => intro n ds c h; exact Or.inl h
  | succ fuel ih =>
    intro n ds c h
    rw [Nat.toDigitsCore] at h
    split at h
    · rcases List.mem_cons.mp h with h1 | h1
      · exact Or.inr ⟨n % b, h1⟩
      · exact Or.inl h1
    · rcases ih (n / b) (Nat.digitChar (n % b) :: ds) c h with h1 | h1
      · rcases List.mem_cons.mp h1 with h2 | h2
        · exact Or.inr ⟨n % b, h2⟩
        · exact Or.inl h2
      · exact Or.inr h1

theorem g_not_mem_repr (n : Nat) : 'g' ∉ (Nat.repr n).data := by
  intro h
  have h' : 'g' ∈ Nat.toDigitsCore 10 (n + 1) n [] := h
  rcases mem_toDigitsCore 10 (n + 1) n [] 'g' h' with h2 | ⟨m, hm⟩
  · exact absurd h2 (List.not_mem_nil _)
  · exact digitChar_ne_g m hm.symm

/-- Value of a decimal digit string, used to show decimal rendering is
injective. -/
def ofDigits10 (l : List Char) : Nat :=
  l.foldl (fun a c => 10 * a + (c.toNat - '0'.toNat)) 0

theorem digitVal_digitChar (m : Nat) (hm : m < 10) :
    (Nat.digitChar m).toNat - '0'.toNat = m := by
  interval_cases m <;> decide

theorem toDigitsCore_eq_append (b : Nat) : ∀ fuel n ds,
    Nat.toDigitsCore b fuel n ds = Nat.toDigitsCore b fuel n [] ++ ds := by
  intro fuel
  induction fuel with
  | zero => intro n ds; rfl
  | succ fuel ih =>
    intro n ds
    rw [Nat.toDigitsCore]
    conv_rhs => rw [Nat.toDigitsCore]
    split
    · rfl
    · rw [ih (n / b) (Nat.digitChar (n % b) :: ds), ih (n / b) [Nat.digitChar (n % b)]]
      simp

theorem ofDigits_toDigitsCore : ∀ fuel n, n < fuel →
    ofDigits10 (Nat.toDigitsCore 10 fuel n []) = n := by
  intro fuel
  induction fuel with
  | zero => intro n h; omega
  | succ fuel ih =>
    intro n h
    rw [Nat.toDigitsCore]
    split
    · rename_i hdiv
      have hn : n < 10 := by omega
      show ofDigits10 [Nat.digitChar (n % 10)] = n
      unfold ofDigits10
      simp only [List.foldl_cons, List.foldl_nil, Nat.mul_zero, Nat.zero_add]
      rw [digitVal_digitChar (n % 10) (Nat.mod_lt n (by norm_num))]
      omega
    · rename_i hdiv
      rw [toDigitsCore_eq_append]
      have hlt : n / 10 < fuel := by
        have h1 : 0 < n := by
          rcases Nat.eq_zero_or_pos n with h0 | h0
          · subst h0; simp at hdiv
          · exact h0
        have h2 : n / 10 < n := Nat.div_lt_self h1 (by norm_num)
        omega
      have hih := ih (n / 10) hlt
      unfold ofDigits10 at hih ⊢
      rw [List.foldl_append]
      simp only [List.foldl_cons, List.foldl_nil]
      rw [hih, digitVal_digitChar (n % 10) (Nat.mod_lt n (by norm_num))]
      omega

theorem natRepr_inj (m n : Nat) (h : Nat.repr m = Nat.repr n) : m = n := by
  have hd : Nat.toDigitsCore 10 (m + 1) m [] = Nat.toDigitsCore 10 (n + 1) n [] :=
    congrArg String.data h
  have hm := ofDigits_toDigitsCore (m + 1) m (Nat.lt_succ_self m)
  have hn := ofDigits_toDigitsCore (n + 1) n (Nat.lt_succ_self n)
  rw [← hm, ← hn, hd]

theorem occursIn_self_append (nd l : List Char) (h : nd ≠ []) :
    occursIn nd (nd ++ l) = true := by
  cases nd with
  | nil => exact absurd rfl h
  | cons c cs =>
    rw [List.cons_append, occursIn]
    have hp : (c :: cs).isPrefixOf (c :: (cs ++ l)) = true :=
      List.isPrefixOf_iff_prefix.mpr ⟨l, by simp⟩
    simp [hp]

theorem occursIn_mem (nd : List Char) (c : Char) (hc : c ∈ nd) :
    ∀ hay, occursIn nd hay = true → c ∈ hay := by
  intro hay
  induction hay with
  | nil =>
    intro h
    rw [occursIn, List.isEmpty_iff] at h
    subst h
    exact absurd hc (List.not_mem_nil _)
  | cons x rest ih =>
    intro h
    rw [occursIn, Bool.or_eq_true] at h
    rcases h with h1 | h2
    · exact (List.isPrefixOf_iff_prefix.mp h1).subset hc
    · exact List.mem_cons_of_mem x (ih h2)

theorem hasGreen_green_name (g : Nat) : hasGreen ("green" ++ "_" ++ Nat.repr g) = true := by
  unfold hasGreen
  have hd : ("green" ++ "_" ++ Nat.repr g).data = "green".data ++ ("_".data ++ (Nat.repr g).data) := by
    rw [String.data_append, String.data_append, List.append_assoc]
  rw [hd]
  exact occursIn_self_append _ _ (by decide)

theorem hasGreen_red_name (g : Nat) : hasGreen ("red" ++ "_" ++ Nat.repr g) = false := by
  rw [Bool.eq_false_iff]
  intro htrue
  unfold hasGreen at htrue
  have hg : 'g' ∈ ("red" ++ "_" ++ Nat.repr g).data :=
    occursIn_mem "green".data 'g' (by decide) _ htrue
  rw [String.data_append, String.data_append] at hg
  rcases List.mem_append.mp hg with h1 | h1
  · rcases List.mem_append.mp h1 with h2 | h2
    · exact absurd h2 (by decide)
    · exact absurd h2 (by decide)
  · exact g_not_mem_repr g h1

theorem groupName_inj (k1 k2 : String) (g1 g2 : Nat)
    (h1 : k1 = "green" ∨ k1 = "red") (h2 : k2 = "green" ∨ k2 = "red")
    (h : k1 ++ "_" ++ Nat.repr g1 = k2 ++ "_" ++ Nat.repr g2) : k1 = k2 ∧ g1 = g2 := by
  have hd := congrArg String.data h
  rw [String.data_append, String.data_append, String.data_append, String.data_append] at hd
  have hrepr : (Nat.repr g1).data = (Nat.repr g2).data → g1 = g2 := by
    intro hq
    exact natRepr_inj g1 g2 (String.ext hq)
  rcases h1 with h1 | h1 <;> rcases h2 with h2 | h2 <;> subst h1 <;> subst h2
  · refine ⟨rfl, hrepr ?_⟩
    exact List.append_cancel_left hd
  · exfalso
    rw [show ("green".data : List Char) = ['g', 'r', 'e', 'e', 'n'] from rfl,
      show ("red".data : List Char) = ['r', 'e', 'd'] from rfl] at hd
    simp at hd
  · exfalso
    rw [show ("green".data : List Char) = ['g', 'r', 'e', 'e', 'n'] from rfl,
      show ("red".data : List Char) = ['r', 'e', 'd'] from rfl] at hd
    simp at hd
  · refine ⟨rfl, hrepr ?_⟩
    exact List.append_cancel_left hd

/-- Well-formedness of a run decomposition: blocks are nonempty, each
block has a constant keyword, and keywords are the two classifier
labels.  `splitRuns` of `mark_keywords` output satisfies this. -/
def GoodRuns (runs : List (List LabeledBar)) : Prop :=
  (∀ r ∈ runs, r ≠ []) ∧ (∀ r ∈ runs, ∀ lb ∈ r, lb.Keyword = runKw r) ∧
    (∀ r ∈ runs, runKw r = "green" ∨ runKw r = "red")

theorem GoodRuns.tail {r : List LabeledBar} {rest : List (List LabeledBar)}
    (h : GoodRuns (r :: rest)) : GoodRuns rest :=
  ⟨fun q hq => h.1 q (List.mem_cons_of_mem r hq),
   fun q hq => h.2.1 q (List.mem_cons_of_mem r hq),
   fun q hq => h.2.2 q (List.mem_cons_of_mem r hq)⟩

theorem goodRuns_splitRuns (bars : List Bar) : GoodRuns (splitRuns (mark_keywords bars)) := by
  refine ⟨splitRuns_ne_nil _, splitRuns_const_kw _, ?_⟩
  intro r hr
  have hne := splitRuns_ne_nil _ r hr
  cases hcase : r with
  | nil => exact absurd hcase hne
  | cons x t =>
    have hx : x ∈ (mark_keywords bars) := by
      have : x ∈ (splitRuns (mark_keywords bars)).flatten :=
        List.mem_flatten.mpr ⟨r, hr, by rw [hcase]; exact List.mem_cons_self x t⟩
      rwa [splitRuns_flatten] at this
    rcases List.mem_map.mp hx with ⟨b, _, hb⟩
    have : x.Keyword = keywordOf b := by rw [← hb]
    rw [runKw, this, keywordOf]
    split
    · exact Or.inl rfl
    · exact Or.inr rfl

theorem annotateP_shape (runs : List (List LabeledBar)) (h : GoodRuns runs) :
    ∀ n, ∀ row ∈ annotateP n runs,
      (row.Keyword = "green" ∨ row.Keyword = "red") ∧ n < row.GroupID ∧
        row.Group = row.Keyword ++ "_" ++ Nat.repr row.GroupID := by
  induction runs with
  | nil => intro n row hrow; simp [annotateP] at hrow
  | cons r rest ih =>
    intro n row hrow
    rcases List.mem_append.mp hrow with h1 | h1
    · rcases List.mem_map.mp h1 with ⟨lb, hlb, heq⟩
      have hkwlb : lb.Keyword = runKw r := h.2.1 r (List.mem_cons_self r rest) lb hlb
      have hkwset := h.2.2 r (List.mem_cons_self r rest)
      subst heq
      exact ⟨hkwlb ▸ hkwset, Nat.lt_succ_self n, rfl⟩
    · have := ih h.tail (n + 1) row h1
      exact ⟨this.1, Nat.lt_of_lt_of_le (Nat.lt_succ_self n) (Nat.le_of_lt this.2.1), this.2.2⟩

theorem annotateP_group_ne (runs : List (List LabeledBar)) (h : GoodRuns runs)
    (n : Nat) (kw : String) (hkw : kw = "green" ∨ kw = "red") (g : Nat) (hg : g ≤ n) :
    ∀ row ∈ annotateP n runs, row.Group ≠ kw ++ "_" ++ Nat.repr g := by
  intro row hrow heq
  have hs := annotateP_shape runs h n row hrow
  rw [hs.2.2] at heq
  rcases groupName_inj _ _ _ _ hs.1 hkw heq with ⟨_, hgid⟩
  omega

theorem annotateP_group_map (r : List LabeledBar) (rest : List (List LabeledBar)) (n : Nat)
    (hconst : ∀ lb ∈ r, lb.Keyword = runKw r) :
    (annotateP n (r :: rest)).map (·.Group) =
      List.replicate r.length (runKw r ++ "_" ++ Nat.repr (n + 1)) ++
        (annotateP (n + 1) rest).map (·.Group) := by
  simp only [annotateP, List.map_append, List.map_map]
  congr 1
  rw [List.map_congr_left (g := fun _ => runKw r ++ "_" ++ Nat.repr (n + 1)) (by
    intro lb hlb
    simp only [Function.comp]
    rw [hconst lb hlb])]
  exact List.map_const' r _

theorem annotateP_filter_head (r : List LabeledBar) (rest : List (List LabeledBar)) (n : Nat)
    (hconst : ∀ lb ∈ r, lb.Keyword = runKw r) (hgood : GoodRuns rest)
    (hkw : runKw r = "green" ∨ runKw r = "red") :
    (annotateP n (r :: rest)).filter (fun x => x.Group = runKw r ++ "_" ++ Nat.repr (n + 1)) =
      r.map (fun lb =>
        ⟨lb.bar, lb.Keyword, n + 1, lb.Keyword ++ "_" ++ Nat.repr (n + 1), runPD r⟩) := by
  show ((r.map _ : List PDBar) ++ annotateP (n + 1) rest).filter _ = _
  rw [List.filter_append]
  have h2 : (annotateP (n + 1) rest).filter
      (fun x => x.Group = runKw r ++ "_" ++ Nat.repr (n + 1)) = [] := by
    rw [List.filter_eq_nil_iff]
    intro row hrow
    have := annotateP_group_ne rest hgood (n + 1) (runKw r) hkw (n + 1) (Nat.le_refl _) row hrow
    simpa using this
  rw [h2, List.append_nil, List.filter_eq_self]
  intro row hrow
  rcases List.mem_map.mp hrow with ⟨lb, hlb, heq⟩
  subst heq
  simp [hconst lb hlb]

theorem annotateP_filter_other (r : List LabeledBar) (rest : List (List LabeledBar)) (n : Nat)
    (hconst : ∀ lb ∈ r, lb.Keyword = runKw r) (name : String)
    (hname : name ≠ runKw r ++ "_" ++ Nat.repr (n + 1)) :
    (annotateP n (r :: rest)).filter (fun x => x.Group = name) =
      (annotateP (n + 1) rest).filter (fun x => x.Group = name) := by
  show ((r.map _ : List PDBar) ++ annotateP (n + 1) rest).filter _ = _
  rw [List.filter_append]
  have h1 : (r.map (fun lb =>
      (⟨lb.bar, lb.Keyword, n + 1, lb.Keyword ++ "_" ++ Nat.repr (n + 1), runPD r⟩ : PDBar))).filter
        (fun x => x.Group = name) = [] := by
    rw [List.filter_eq_nil_iff]
    intro row hrow
    rcases List.mem_map.mp hrow with ⟨lb, hlb, heq⟩
    subst heq
    simp only [decide_eq_true_eq]
    rw [hconst lb hlb]
    exact fun hc => hname (hc ▸ rfl)
  rw [h1, List.nil_append]

/-- Specification-side list of qualifying group names: one entry per
green run whose range percentage passes the threshold. -/
def validNames (thr : ℚ) : Nat → List (List LabeledBar) → List String
  | _, [] => []
  | n, r :: rest =>
    (if runKw r = "green" ∧ (runPD r).ge thr then
      [runKw r ++ "_" ++ Nat.repr (n + 1)] else []) ++ validNames thr (n + 1) rest

theorem valid_groups_annotateP (thr : ℚ) (runs : List (List LabeledBar)) :
    ∀ n, GoodRuns runs → valid_groups thr (annotateP n runs) = validNames thr n runs := by
  induction runs with
  | nil => intro n _; simp [annotateP, valid_groups, validNames, uniqueFirst]
  | cons r rest ih =>
    intro n hgood
    have hr : r ≠ [] := hgood.1 r (List.mem_cons_self r rest)
    have hconst : ∀ lb ∈ r, lb.Keyword = runKw r := hgood.2.1 r (List.mem_cons_self r rest)
    have hkw : runKw r = "green" ∨ runKw r = "red" := hgood.2.2 r (List.mem_cons_self r rest)
    have hlen : r.length ≠ 0 := fun h => hr (List.length_eq_zero.mp h)
    have hnotmem : (runKw r ++ "_" ++ Nat.repr (n + 1)) ∉
        (annotateP (n + 1) rest).map (·.Group) := by
      intro h
      rcases List.mem_map.mp h with ⟨row, hrow, hg⟩
      exact annotateP_group_ne rest hgood.tail (n + 1) (runKw r) hkw (n + 1)
        (Nat.le_refl _) row hrow hg
    have huf : uniqueFirst ((annotateP n (r :: rest)).map (·.Group)) =
        (runKw r ++ "_" ++ Nat.repr (n + 1)) ::
          uniqueFirst ((annotateP (n + 1) rest).map (·.Group)) := by
      rw [annotateP_group_map r rest n hconst,
        uniqueFirst_replicate_append _ _ hlen _ hnotmem]
    have hfirst : firstPDiff (annotateP n (r :: rest)) (runKw r ++ "_" ++ Nat.repr (n + 1)) =
        runPD r := by
      unfold firstPDiff
      rw [annotateP_filter_head r rest n hconst hgood.tail hkw]
      cases r with
      | nil => exact absurd rfl hr
      | cons x t => rfl
    unfold valid_groups
    rw [huf, List.filter_cons]
    have htail : (uniqueFirst ((annotateP (n + 1) rest).map (·.Group))).filter
        (fun name => hasGreen name && (firstPDiff (annotateP n (r :: rest)) name).ge thr) =
          valid_groups thr (annotateP (n + 1) rest) := by
      unfold valid_groups
      apply List.filter_congr
      intro name hname
      have hmem : name ∈ (annotateP (n + 1) rest).map (·.Group) :=
        (uniqueFirst_mem_iff _ _).mp hname
      have hne : name ≠ runKw r ++ "_" ++ Nat.repr (n + 1) := by
        intro hc
        exact hnotmem (hc ▸ hmem)
      rw [show firstPDiff (annotateP n (r :: rest)) name =
          firstPDiff (annotateP (n + 1) rest) name by
        unfold firstPDiff
        rw [annotateP_filter_other r rest n hconst name hne]]
    rw [htail, ih (n + 1) hgood.tail]
    rw [show validNames thr n (r :: rest) =
      (if runKw r = "green" ∧ (runPD r).ge thr then
        [runKw r ++ "_" ++ Nat.repr (n + 1)] else []) ++ validNames thr (n + 1) rest from rfl]
    rcases hkw with hg | hg
    · rw [hg] at hfirst
      rw [hg, hfirst, hasGreen_green_name (n + 1), Bool.true_and]
      cases hge : (runPD r).ge thr
      · rw [if_neg (by simp [hge]), if_neg (by simp)]
        rw [List.nil_append]
      · rw [if_pos (by simp), if_pos (by simp [hg, hge])]
        rw [List.singleton_append]
    · rw [hg] at hfirst
      rw [hg, hfirst, hasGreen_red_name (n + 1), Bool.false_and]
      rw [if_neg (by simp), if_neg (by
        intro hc
        have : ("red" : String) = "green" := hc.1
        exact absurd this (by decide))]
      rw [List.nil_append]

/-- Specification-side view of the data after `identify_valid_groups`. -/
def annotateV (thr : ℚ) : Nat → List (List LabeledBar) → List VBar
  | _, [] => []
  | n, r :: rest =>
    r.map (fun lb =>
      ⟨lb.bar, lb.Keyword, n + 1, lb.Keyword ++ "_" ++ Nat.repr (n + 1), runPD r,
        if runKw r = "green" ∧ (runPD r).ge thr then
          lb.Keyword ++ "_" ++ Nat.repr (n + 1) else ""⟩) ++ annotateV thr (n + 1) rest

theorem validNames_subset (thr : ℚ) (runs : List (List LabeledBar)) (hgood : GoodRuns runs) :
    ∀ n, ∀ x ∈ validNames thr n runs, x ∈ (annotateP n runs).map (·.Group) := by
  induction runs with
  | nil => intro n x hx; simp [validNames] at hx
  | cons r rest ih =>
    intro n x hx
    have hr : r ≠ [] := hgood.1 r (List.mem_cons_self r rest)
    have hconst : ∀ lb ∈ r, lb.Keyword = runKw r := hgood.2.1 r (List.mem_cons_self r rest)
    have hx' : x ∈ (if runKw r = "green" ∧ (runPD r).ge thr then
        [runKw r ++ "_" ++ Nat.repr (n + 1)] else []) ++ validNames thr (n + 1) rest := hx
    rw [show (annotateP n (r :: rest)).map (·.Group) =
      (r.map (fun lb =>
        (⟨lb.bar, lb.Keyword, n + 1, lb.Keyword ++ "_" ++ Nat.repr (n + 1), runPD r⟩ :
          PDBar))).map (·.Group) ++ (annotateP (n + 1) rest).map (·.Group) from by
      rw [show annotateP n (r :: rest) = r.map _ ++ annotateP (n + 1) rest from rfl,
        List.map_append]]
    rcases List.mem_append.mp hx' with h1 | h1
    · apply List.mem_append_left
      split at h1
      · cases r with
        | nil => exact absurd rfl hr
        | cons y t =>
          rcases List.mem_singleton.mp h1 with rfl
          refine List.mem_map.mpr ⟨⟨y.bar, y.Keyword, n + 1,
            y.Keyword ++ "_" ++ Nat.repr (n + 1), runPD (y :: t)⟩, ?_, ?_⟩
          · exact List.mem_map.mpr ⟨y, List.mem_cons_self y t, rfl⟩
          · show y.Keyword ++ "_" ++ Nat.repr (n + 1) = runKw (y :: t) ++ "_" ++ Nat.repr (n + 1)
            rw [hconst y (List.mem_cons_self y t)]
      · exact absurd h1 (List.not_mem_nil x)
    · exact List.mem_append_right _ (ih hgood.tail (n + 1) x h1)

theorem identify_annotateP (thr : ℚ) (runs : List (List LabeledBar)) :
    ∀ n, GoodRuns runs →
      identify_valid_groups thr (annotateP n runs) = annotateV thr n runs := by
  induction runs with
  | nil => intro n _; rfl
  | cons r rest ih =>
    intro n hgood
    have hconst : ∀ lb ∈ r, lb.Keyword = runKw r := hgood.2.1 r (List.mem_cons_self r rest)
    have hkw : runKw r = "green" ∨ runKw r = "red" := hgood.2.2 r (List.mem_cons_self r rest)
    have hnotmem : (runKw r ++ "_" ++ Nat.repr (n + 1)) ∉
        (annotateP (n + 1) rest).map (·.Group) := by
      intro h
      rcases List.mem_map.mp h with ⟨row, hrow, hg⟩
      exact annotateP_group_ne rest hgood.tail (n + 1) (runKw r) hkw (n + 1)
        (Nat.le_refl _) row hrow hg
    have hmemiff : ∀ lb ∈ r, ((lb.Keyword ++ "_" ++ Nat.repr (n + 1)) ∈
        validNames thr n (r :: rest)) ↔ (runKw r = "green" ∧ (runPD r).ge thr) := by
      intro lb hlb
      rw [hconst lb hlb]
      constructor
      · intro hmem
        have hmem' : runKw r ++ "_" ++ Nat.repr (n + 1) ∈
            (if runKw r = "green" ∧ (runPD r).ge thr then
              [runKw r ++ "_" ++ Nat.repr (n + 1)] else []) ++ validNames thr (n + 1) rest := hmem
        rcases List.mem_append.mp hmem' with h1 | h1
        · split at h1
          · assumption
          · exact absurd h1 (List.not_mem_nil _)
        · exact absurd (validNames_subset thr rest hgood.tail (n + 1) _ h1) hnotmem
      · intro hcond
        show runKw r ++ "_" ++ Nat.repr (n + 1) ∈
          (if runKw r = "green" ∧ (runPD r).ge thr then
            [runKw r ++ "_" ++ Nat.repr (n + 1)] else []) ++ validNames thr (n + 1) rest
        rw [if_pos hcond]
        exact List.mem_append_left _ (List.mem_singleton.mpr rfl)
    have hmemiff2 : ∀ row ∈ annotateP (n + 1) rest,
        (row.Group ∈ validNames thr n (r :: rest)) ↔
          (row.Group ∈ validNames thr (n + 1) rest) := by
      intro row hrow
      constructor
      · intro hmem
        have hmem' : row.Group ∈ (if runKw r = "green" ∧ (runPD r).ge thr then
            [runKw r ++ "_" ++ Nat.repr (n + 1)] else []) ++ validNames thr (n + 1) rest := hmem
        rcases List.mem_append.mp hmem' with h1 | h1
        · exfalso
          split at h1
          · exact annotateP_group_ne rest hgood.tail (n + 1) (runKw r) hkw (n + 1)
              (Nat.le_refl _) row hrow (List.mem_singleton.mp h1)
          · exact absurd h1 (List.not_mem_nil _)
        · exact h1
      · intro hmem
        show row.Group ∈ (if runKw r = "green" ∧ (runPD r).ge thr then
          [runKw r ++ "_" ++ Nat.repr (n + 1)] else []) ++ validNames thr (n + 1) rest
        exact List.mem_append_right _ hmem
    show (annotateP n (r :: rest)).map (fun row =>
      (⟨row.bar, row.Keyword, row.GroupID, row.Group, row.PercentageDifference,
        if row.Group ∈ valid_groups thr (annotateP n (r :: rest)) then row.Group else ""⟩ :
          VBar)) = annotateV thr n (r :: rest)
    rw [valid_groups_annotateP thr (r :: rest) n hgood]
    rw [show annotateP n (r :: rest) = r.map (fun lb =>
      (⟨lb.bar, lb.Keyword, n + 1, lb.Keyword ++ "_" ++ Nat.repr (n + 1), runPD r⟩ : PDBar)) ++
        annotateP (n + 1) rest from rfl]
    rw [List.map_append, List.map_map]
    rw [show annotateV thr n (r :: rest) = r.map (fun lb =>
      (⟨lb.bar, lb.Keyword, n + 1, lb.Keyword ++ "_" ++ Nat.repr (n + 1), runPD r,
        if runKw r = "green" ∧ (runPD r).ge thr then
          lb.Keyword ++ "_" ++ Nat.repr (n + 1) else ""⟩ : VBar)) ++
        annotateV thr (n + 1) rest from rfl]
    congr 1
    · apply List.map_congr_left
      intro lb hlb
      simp only [Function.comp]
      rw [if_congr (hmemiff lb hlb) rfl rfl]
    · have hstep : (annotateP (n + 1) rest).map (fun row =>
          (⟨row.bar, row.Keyword, row.GroupID, row.Group, row.PercentageDifference,
            if row.Group ∈ validNames thr n (r :: rest) then row.Group else ""⟩ : VBar)) =
            (annotateP (n + 1) rest).map (fun row =>
          (⟨row.bar, row.Keyword, row.GroupID, row.Group, row.PercentageDifference,
            if row.Group ∈ validNames thr (n + 1) rest then row.Group else ""⟩ : VBar)) := by
        apply List.map_congr_left
        intro row hrow
        rw [if_congr (hmemiff2 row hrow) rfl rfl]
      rw [hstep]
      have hrest : identify_valid_groups thr (annotateP (n + 1) rest) =
          (annotateP (n + 1) rest).map (fun row =>
            (⟨row.bar, row.Keyword, row.GroupID, row.Group, row.PercentageDifference,
              if row.Group ∈ validNames thr (n + 1) rest then row.Group else ""⟩ : VBar)) := by
        show (annotateP (n + 1) rest).map (fun row =>
          (⟨row.bar, row.Keyword, row.GroupID, row.Group, row.PercentageDifference,
            if row.Group ∈ valid_groups thr (annotateP (n + 1) rest) then row.Group
            else ""⟩ : VBar)) = _
        rw [valid_groups_annotateP thr rest (n + 1) hgood.tail]
      rw [← hrest, ih (n + 1) hgood.tail]

theorem groupName_ne_empty (kw : String) (g : Nat) : kw ++ "_" ++ Nat.repr g ≠ "" := by
  intro h
  have hd := congrArg String.data h
  rw [String.data_append, String.data_append] at hd
  rcases (List.append_eq_nil.mp hd).1 with h1
  rcases (List.append_eq_nil.mp h1).2 with h2
  exact absurd h2 (by decide)

/-- Specification-side view of the data after `remove_invalid_rows`:
only the member rows of qualifying runs remain. -/
def keptBlocks (thr : ℚ) : Nat → List (List LabeledBar) → List VBar
  | _, [] => []
  | n, r :: rest =>
    (if runKw r = "green" ∧ (runPD r).ge thr then
      r.map (fun lb =>
        ⟨lb.bar, lb.Keyword, n + 1, lb.Keyword ++ "_" ++ Nat.repr (n + 1), runPD r,
          lb.Keyword ++ "_" ++ Nat.repr (n + 1)⟩)
     else []) ++ keptBlocks thr (n + 1) rest

theorem remove_annotateV (thr : ℚ) (runs : List (List LabeledBar)) :
    ∀ n, remove_invalid_rows (annotateV thr n runs) = keptBlocks thr n runs := by
  induction runs with
  | nil => intro n; rfl
  | cons r rest ih =>
    intro n
    show (r.map _ ++ annotateV thr (n + 1) rest).filter _ = _
    rw [List.filter_append]
    rw [show keptBlocks thr n (r :: rest) = (if runKw r = "green" ∧ (runPD r).ge thr then
      r.map (fun lb =>
        (⟨lb.bar, lb.Keyword, n + 1, lb.Keyword ++ "_" ++ Nat.repr (n + 1), runPD r,
          lb.Keyword ++ "_" ++ Nat.repr (n + 1)⟩ : VBar))
      else []) ++ keptBlocks thr (n + 1) rest from rfl]
    rw [← ih (n + 1)]
    congr 1
    by_cases hcond : runKw r = "green" ∧ (runPD r).ge thr
    · rw [if_pos hcond]
      rw [List.filter_map, List.filter_eq_self.mpr ?_]
      · apply List.map_congr_left
        intro lb _
        simp only [if_pos hcond]
      · intro lb _
        show decide ((if runKw r = "green" ∧ (runPD r).ge thr then
          lb.Keyword ++ "_" ++ Nat.repr (n + 1) else "") ≠ "") = true
        rw [decide_eq_true_eq, if_pos hcond]
        exact groupName_ne_empty _ _
    · rw [if_neg hcond]
      rw [List.filter_eq_nil_iff.mpr ?_]
      intro row hrow
      rcases List.mem_map.mp hrow with ⟨lb, _, heq⟩
      subst heq
      simp only [decide_eq_true_eq]
      rw [if_neg hcond]
      simp

theorem keptBlocks_shape (thr : ℚ) (runs : List (List LabeledBar)) (h : GoodRuns runs) :
    ∀ n, ∀ row ∈ keptBlocks thr n runs,
      (row.Keyword = "green" ∨ row.Keyword = "red") ∧ n < row.GroupID ∧
        row.ValidGroup = row.Keyword ++ "_" ++ Nat.repr row.GroupID := by
  induction runs with
  | nil => intro n row hrow; simp [keptBlocks] at hrow
  | cons r rest ih =>
    intro n row hrow
    rcases List.mem_append.mp hrow with h1 | h1
    · split at h1
      · rcases List.mem_map.mp h1 with ⟨lb, hlb, heq⟩
        have hkwlb : lb.Keyword = runKw r := h.2.1 r (List.mem_cons_self r rest) lb hlb
        have hkwset := h.2.2 r (List.mem_cons_self r rest)
        subst heq
        exact ⟨hkwlb ▸ hkwset, Nat.lt_succ_self n, rfl⟩
      · exact absurd h1 (List.not_mem_nil row)
    · have := ih h.tail (n + 1) row h1
      exact ⟨this.1, Nat.lt_of_lt_of_le (Nat.lt_succ_self n) (Nat.le_of_lt this.2.1), this.2.2⟩

theorem keptBlocks_vg_ne (thr : ℚ) (runs : List (List LabeledBar)) (h : GoodRuns runs)
    (n : Nat) (kw : String) (hkw : kw = "green" ∨ kw = "red") (g : Nat) (hg : g ≤ n) :
    ∀ row ∈ keptBlocks thr n runs, row.ValidGroup ≠ kw ++ "_" ++ Nat.repr g := by
  intro row hrow heq
  have hs := keptBlocks_shape thr runs h n row hrow
  rw [hs.2.2] at heq
  rcases groupName_inj _ _ _ _ hs.1 hkw heq with ⟨_, hgid⟩
  omega

/-- Specification-side final output: one summary row per green run whose
range percentage passes the threshold, in run order. -/
def expectedSummaries (thr : ℚ) : Nat → List (List LabeledBar) → List Summary
  | _, [] => []
  | n, r :: rest =>
    (if runKw r = "green" ∧ (runPD r).ge thr then
      [⟨runSym r, runLow r, runHigh r, runDate r, runPD r,
        runKw r ++ "_" ++ Nat.repr (n + 1)⟩]
     else []) ++ expectedSummaries thr (n + 1) rest

theorem firstSymbol_block (r : List LabeledBar) (n : Nat) (pd : PDiff) (hr : r ≠ []) :
    firstSymbol (r.map (fun lb =>
      (⟨lb.bar, lb.Keyword, n + 1, lb.Keyword ++ "_" ++ Nat.repr (n + 1), pd,
        lb.Keyword ++ "_" ++ Nat.repr (n + 1)⟩ : VBar))) = runSym r := by
  cases r with
  | nil => exact absurd rfl hr
  | cons y t => rfl

theorem firstPDiffV_block (r : List LabeledBar) (n : Nat) (pd : PDiff) (hr : r ≠ []) :
    firstPDiffV (r.map (fun lb =>
      (⟨lb.bar, lb.Keyword, n + 1, lb.Keyword ++ "_" ++ Nat.repr (n + 1), pd,
        lb.Keyword ++ "_" ++ Nat.repr (n + 1)⟩ : VBar))) = pd := by
  cases r with
  | nil => exact absurd rfl hr
  | cons y t => rfl

theorem transform_keptBlocks (thr : ℚ) (runs : List (List LabeledBar)) :
    ∀ n, GoodRuns runs →
      transform_valid_groups (keptBlocks thr n runs) = expectedSummaries thr n runs := by
  induction runs with
  | nil => intro n _; simp [keptBlocks, transform_valid_groups, uniqueFirst, expectedSummaries]
  | cons r rest ih =>
    intro n hgood
    have hr : r ≠ [] := hgood.1 r (List.mem_cons_self r rest)
    have hconst : ∀ lb ∈ r, lb.Keyword = runKw r := hgood.2.1 r (List.mem_cons_self r rest)
    have hkw : runKw r = "green" ∨ runKw r = "red" := hgood.2.2 r (List.mem_cons_self r rest)
    rw [show keptBlocks thr n (r :: rest) = (if runKw r = "green" ∧ (runPD r).ge thr then
      r.map (fun lb =>
        (⟨lb.bar, lb.Keyword, n + 1, lb.Keyword ++ "_" ++ Nat.repr (n + 1), runPD r,
          lb.Keyword ++ "_" ++ Nat.repr (n + 1)⟩ : VBar))
      else []) ++ keptBlocks thr (n + 1) rest from rfl]
    rw [show expectedSummaries thr n (r :: rest) =
      (if runKw r = "green" ∧ (runPD r).ge thr then
        [⟨runSym r, runLow r, runHigh r, runDate r, runPD r,
          runKw r ++ "_" ++ Nat.repr (n + 1)⟩]
       else []) ++ expectedSummaries thr (n + 1) rest from rfl]
    by_cases hcond : runKw r = "green" ∧ (runPD r).ge thr
    · rw [if_pos hcond, if_pos hcond]
      have hvgmap : (r.map (fun lb =>
          (⟨lb.bar, lb.Keyword, n + 1, lb.Keyword ++ "_" ++ Nat.repr (n + 1), runPD r,
            lb.Keyword ++ "_" ++ Nat.repr (n + 1)⟩ : VBar)) ++
            keptBlocks thr (n + 1) rest).map (·.ValidGroup) =
          List.replicate r.length (runKw r ++ "_" ++ Nat.repr (n + 1)) ++
            (keptBlocks thr (n + 1) rest).map (·.ValidGroup) := by
        rw [List.map_append, List.map_map]
        congr 1
        rw [List.map_congr_left (g := fun _ => runKw r ++ "_" ++ Nat.repr (n + 1)) (by
          intro lb hlb
          simp only [Function.comp]
          rw [hconst lb hlb])]
        exact List.map_const' r _
      have hnotmem : (runKw r ++ "_" ++ Nat.repr (n + 1)) ∉
          (keptBlocks thr (n + 1) rest).map (·.ValidGroup) := by
        intro h
        rcases List.mem_map.mp h with ⟨row, hrow, hg⟩
        exact keptBlocks_vg_ne thr rest hgood.tail (n + 1) (runKw r) hkw (n + 1)
          (Nat.le_refl _) row hrow hg
      have hlen : r.length ≠ 0 := fun h => hr (List.length_eq_zero.mp h)
      have huf : uniqueFirst ((r.map (fun lb =>
          (⟨lb.bar, lb.Keyword, n + 1, lb.Keyword ++ "_" ++ Nat.repr (n + 1), runPD r,
            lb.Keyword ++ "_" ++ Nat.repr (n + 1)⟩ : VBar)) ++
            keptBlocks thr (n + 1) rest).map (·.ValidGroup)) =
          (runKw r ++ "_" ++ Nat.repr (n + 1)) ::
            uniqueFirst ((keptBlocks thr (n + 1) rest).map (·.ValidGroup)) := by
        rw [hvgmap, uniqueFirst_replicate_append _ _ hlen _ hnotmem]
      have hfiltergrp : (r.map (fun lb =>
          (⟨lb.bar, lb.Keyword, n + 1, lb.Keyword ++ "_" ++ Nat.repr (n + 1), runPD r,
            lb.Keyword ++ "_" ++ Nat.repr (n + 1)⟩ : VBar)) ++
            keptBlocks thr (n + 1) rest).filter
              (fun x => x.ValidGroup = runKw r ++ "_" ++ Nat.repr (n + 1)) =
          r.map (fun lb =>
            (⟨lb.bar, lb.Keyword, n + 1, lb.Keyword ++ "_" ++ Nat.repr (n + 1), runPD r,
              lb.Keyword ++ "_" ++ Nat.repr (n + 1)⟩ : VBar)) := by
        rw [List.filter_append]
        have h2 : (keptBlocks thr (n + 1) rest).filter
            (fun x => x.ValidGroup = runKw r ++ "_" ++ Nat.repr (n + 1)) = [] := by
          rw [List.filter_eq_nil_iff]
          intro row hrow
          have := keptBlocks_vg_ne thr rest hgood.tail (n + 1) (runKw r) hkw (n + 1)
            (Nat.le_refl _) row hrow
          simpa using this
        rw [h2, List.append_nil, List.filter_eq_self]
        intro row hrow
        rcases List.mem_map.mp hrow with ⟨lb, hlb, heq⟩
        subst heq
        simp [hconst lb hlb]
      unfold transform_valid_groups
      rw [huf]
      rw [List.filterMap_cons_some (b := (⟨runSym r, runLow r, runHigh r, runDate r, runPD r,
        runKw r ++ "_" ++ Nat.repr (n + 1)⟩ : Summary)) ?_]
      · rw [List.singleton_append]
        congr 1
        rw [List.filterMap_congr (g := fun group_name =>
          if group_name = "" then none
          else some ⟨firstSymbol ((keptBlocks thr (n + 1) rest).filter
              (fun x => x.ValidGroup = group_name)),
            qListMin (((keptBlocks thr (n + 1) rest).filter
              (fun x => x.ValidGroup = group_name)).map (·.bar.Low)),
            qListMax (((keptBlocks thr (n + 1) rest).filter
              (fun x => x.ValidGroup = group_name)).map (·.bar.High)),
            natListMin (((keptBlocks thr (n + 1) rest).filter
              (fun x => x.ValidGroup = group_name)).map (·.bar.date)),
            firstPDiffV ((keptBlocks thr (n + 1) rest).filter
              (fun x => x.ValidGroup = group_name)),
            group_name⟩) ?_]
        · exact ih (n + 1) hgood.tail
        · intro name hname
          have hmem : name ∈ (keptBlocks thr (n + 1) rest).map (·.ValidGroup) :=
            (uniqueFirst_mem_iff _ _).mp hname
          have hne : name ≠ runKw r ++ "_" ++ Nat.repr (n + 1) := by
            intro hc
            exact hnotmem (hc ▸ hmem)
          have hfilterother : (r.map (fun lb =>
              (⟨lb.bar, lb.Keyword, n + 1, lb.Keyword ++ "_" ++ Nat.repr (n + 1), runPD r,
                lb.Keyword ++ "_" ++ Nat.repr (n + 1)⟩ : VBar)) ++
                keptBlocks thr (n + 1) rest).filter (fun x => x.ValidGroup = name) =
              (keptBlocks thr (n + 1) rest).filter (fun x => x.ValidGroup = name) := by
            rw [List.filter_append]
            have h1 : (r.map (fun lb =>
                (⟨lb.bar, lb.Keyword, n + 1, lb.Keyword ++ "_" ++ Nat.repr (n + 1), runPD r,
                  lb.Keyword ++ "_" ++ Nat.repr (n + 1)⟩ : VBar))).filter
                  (fun x => x.ValidGroup = name) = [] := by
              rw [List.filter_eq_nil_iff]
              intro row hrow
              rcases List.mem_map.mp hrow with ⟨lb, hlb, heq⟩
              subst heq
              simp only [decide_eq_true_eq]
              rw [hconst lb hlb]
              exact fun hc => hne (hc ▸ rfl)
            rw [h1, List.nil_append]
          rw [hfilterother]
      · rw [if_neg (groupName_ne_empty _ _)]
        rw [hfiltergrp]
        refine congrArg some ?_
        congr 1
        · exact firstSymbol_block r n (runPD r) hr
        · rw [List.map_map]; rfl
        · rw [List.map_map]; rfl
        · rw [List.map_map]; rfl
        · exact firstPDiffV_block r n (runPD r) hr
    · rw [if_neg hcond, if_neg hcond, List.nil_append, List.nil_append]
      exact ih (n + 1) hgood.tail

/-- End-to-end bridge: the pipeline computes, for each maximal
same-direction run, one summary exactly when the run is green and its
range percentage passes the threshold. -/
theorem runPipeline_eq_expected (thr : ℚ) (bars : List Bar) :
    runPipeline thr bars = expectedSummaries thr 0 (splitRuns (mark_keywords bars)) := by
  unfold runPipeline
  rw [assign_groups_eq_annotate, calc_annotate _ 0 (splitRuns_ne_nil _),
    identify_annotateP thr _ 0 (goodRuns_splitRuns bars),
    remove_annotateV, transform_keptBlocks thr _ 0 (goodRuns_splitRuns bars)]

theorem assignGo_map_labeled (l : List LabeledBar) :
    ∀ prev n, (assignGo prev n l).map (fun g => (⟨g.bar, g.Keyword⟩ : LabeledBar)) = l := by
  induction l with
  | nil => intro prev n; rfl
  | cons x xs ih =>
    intro prev n
    show (⟨x.bar, x.Keyword⟩ : LabeledBar) :: (assignGo (some x.Keyword) _ xs).map _ = x :: xs
    rw [ih]

theorem assignGo_chain' (l : List LabeledBar) :
    ∀ prev n, List.Chain' (fun a b =>
      b.GroupID = if b.Keyword = a.Keyword then a.GroupID else a.GroupID + 1)
        (assignGo prev n l) := by
  induction l with
  | nil => intro prev n; exact List.chain'_nil
  | cons x xs ih =>
    intro prev n
    rw [show assignGo prev n (x :: xs) =
      (⟨x.bar, x.Keyword, if prev = some x.Keyword then n else n + 1,
        x.Keyword ++ "_" ++ Nat.repr (if prev = some x.Keyword then n else n + 1)⟩ : GroupedBar)
        :: assignGo (some x.Keyword) (if prev = some x.Keyword then n else n + 1) xs from rfl]
    apply List.chain'_cons'.mpr
    refine ⟨?_, ih (some x.Keyword) _⟩
    intro y hy
    cases xs with
    | nil => simp [assignGo] at hy
    | cons z zs =>
      have hz : y = ⟨z.bar, z.Keyword,
          if some x.Keyword = some z.Keyword then
            (if prev = some x.Keyword then n else n + 1)
          else (if prev = some x.Keyword then n else n + 1) + 1,
          z.Keyword ++ "_" ++ Nat.repr (if some x.Keyword = some z.Keyword then
            (if prev = some x.Keyword then n else n + 1)
          else (if prev = some x.Keyword then n else n + 1) + 1)⟩ := by
        have : (assignGo (some x.Keyword) (if prev = some x.Keyword then n else n + 1)
            (z :: zs)).head? = some y := hy
        rw [show assignGo (some x.Keyword) (if prev = some x.Keyword then n else n + 1)
          (z :: zs) = _ :: assignGo (some z.Keyword) _ zs from rfl] at this
        exact (Option.some.inj this).symm
      subst hz
      show (if some x.Keyword = some z.Keyword then _ else _) =
        if z.Keyword = x.Keyword then _ else _
      by_cases hzx : z.Keyword = x.Keyword
      · rw [if_pos (by rw [hzx]), if_pos hzx]
      · rw [if_neg (by
          intro hc
          exact hzx (Option.some.inj hc).symm), if_neg hzx]

theorem annotateP_map_grouped (runs : List (List LabeledBar)) :
    ∀ n, (annotateP n runs).map (fun p =>
      (⟨p.bar, p.Keyword, p.GroupID, p.Group⟩ : GroupedBar)) = annotate n runs := by
  induction runs with
  | nil => intro n; rfl
  | cons r rest ih =>
    intro n
    show ((r.map _ : List PDBar) ++ annotateP (n + 1) rest).map _ = (r.map _ : List GroupedBar) ++ annotate (n + 1) rest
    rw [List.map_append, List.map_map, ih]
    rfl

theorem annotateP_gid_gt (runs : List (List LabeledBar)) :
    ∀ n, ∀ row ∈ annotateP n runs, n < row.GroupID := by
  induction runs with
  | nil => intro n row h; simp [annotateP] at h
  | cons r rest ih =>
    intro n row h
    rcases List.mem_append.mp h with h | h
    · rcases List.mem_map.mp h with ⟨lb, _, hlb⟩
      rw [← hlb]
      exact Nat.lt_succ_self n
    · exact Nat.lt_of_lt_of_le (Nat.lt_succ_self n) (Nat.le_of_lt (ih (n + 1) row h))

theorem annotateP_filter_gid_head (r : List LabeledBar) (rest : List (List LabeledBar)) (n : Nat) :
    (annotateP n (r :: rest)).filter (fun x => x.GroupID = n + 1) =
      r.map (fun lb =>
        ⟨lb.bar, lb.Keyword, n + 1, lb.Keyword ++ "_" ++ Nat.repr (n + 1), runPD r⟩) := by
  show ((r.map _ : List PDBar) ++ annotateP (n + 1) rest).filter _ = _
  rw [List.filter_append]
  have h2 : (annotateP (n + 1) rest).filter (fun x => x.GroupID = n + 1) = [] := by
    rw [List.filter_eq_nil_iff]
    intro row hrow
    have := annotateP_gid_gt rest (n + 1) row hrow
    simp only [decide_eq_true_eq]
    omega
  rw [h2, List.append_nil, List.filter_eq_self]
  intro row hrow
  rcases List.mem_map.mp hrow with ⟨lb, _, heq⟩
  subst heq
  simp

theorem annotateP_filter_gid_later (r : List LabeledBar) (rest : List (List LabeledBar))
    (n g : Nat) (hg : n + 1 < g) :
    (annotateP n (r :: rest)).filter (fun x => x.GroupID = g) =
      (annotateP (n + 1) rest).filter (fun x => x.GroupID = g) := by
  show ((r.map _ : List PDBar) ++ annotateP (n + 1) rest).filter _ = _
  rw [List.filter_append]
  have h1 : (r.map (fun lb =>
      (⟨lb.bar, lb.Keyword, n + 1, lb.Keyword ++ "_" ++ Nat.repr (n + 1), runPD r⟩ :
        PDBar))).filter (fun x => x.GroupID = g) = [] := by
    rw [List.filter_eq_nil_iff]
    intro row hrow
    rcases List.mem_map.mp hrow with ⟨lb, _, heq⟩
    subst heq
    simp only [decide_eq_true_eq]
    omega
  rw [h1, List.nil_append]

theorem annotateP_pd_spec (runs : List (List LabeledBar)) :
    ∀ n, ∀ row ∈ annotateP n runs,
      row.PercentageDifference = rangePct
        (qListMin (((annotateP n runs).filter (fun x => x.GroupID = row.GroupID)).map (·.bar.Low)))
        (qListMax (((annotateP n runs).filter (fun x => x.GroupID = row.GroupID)).map (·.bar.High))) := by
  induction runs with
  | nil => intro n row h; simp [annotateP] at h
  | cons r rest ih =>
    intro n row h
    rcases List.mem_append.mp h with h1 | h1
    · have hgid : row.GroupID = n + 1 := by
        rcases List.mem_map.mp h1 with ⟨lb, _, heq⟩
        rw [← heq]
      rw [hgid, annotateP_filter_gid_head r rest n, List.map_map, List.map_map]
      rcases List.mem_map.mp h1 with ⟨lb, _, heq⟩
      rw [← heq]
      rfl
    · have hgid : n + 1 < row.GroupID := annotateP_gid_gt rest (n + 1) row h1
      rw [annotateP_filter_gid_later r rest n row.GroupID hgid]
      exact ih (n + 1) row h1

theorem keptBlocks_map_strip (thr : ℚ) (runs : List (List LabeledBar)) :
    ∀ n, GoodRuns runs →
      (keptBlocks thr n runs).map (fun v =>
        (⟨v.bar, v.Keyword, v.GroupID, v.Group, v.PercentageDifference⟩ : PDBar)) =
        (annotateP n runs).filter (fun row =>
          decide (row.Keyword = "green") && row.PercentageDifference.ge thr) := by
  induction runs with
  | nil => intro n _; rfl
  | cons r rest ih =>
    intro n hgood
    have hconst : ∀ lb ∈ r, lb.Keyword = runKw r := hgood.2.1 r (List.mem_cons_self r rest)
    show ((if runKw r = "green" ∧ (runPD r).ge thr then r.map _ else []) ++
      keptBlocks thr (n + 1) rest).map _ = ((r.map _ : List PDBar) ++ annotateP (n + 1) rest).filter _
    rw [List.map_append, List.filter_append, apply_ite (List.map _), List.map_map, List.map_nil]
    congr 1
    · by_cases hcond : runKw r = "green" ∧ (runPD r).ge thr
      · rw [if_pos hcond]
        rw [List.filter_eq_self.mpr ?_]
        · rfl
        · intro row hrow
          rcases List.mem_map.mp hrow with ⟨lb, hlb, heq⟩
          subst heq
          show (decide (lb.Keyword = "green") && (runPD r).ge thr) = true
          rw [hconst lb hlb, hcond.1]
          simp [hcond.2]
      · rw [if_neg hcond]
        rw [List.filter_eq_nil_iff.mpr ?_]
        intro row hrow
        rcases List.mem_map.mp hrow with ⟨lb, hlb, heq⟩
        subst heq
        show ¬ (decide (lb.Keyword = "green") && (runPD r).ge thr) = true
        rw [hconst lb hlb]
        intro hc
        rcases (Bool.and_eq_true _ _).mp hc with ⟨hcg, hcge⟩
        exact hcond ⟨by simpa using hcg, hcge⟩
    · exact ih (n + 1) hgood.tail

theorem expectedSummaries_symbol (thr : ℚ) (runs : List (List LabeledBar)) :
    ∀ n, ∀ rec ∈ expectedSummaries thr n runs, ∃ r, r ∈ runs ∧ rec.Symbol = runSym r := by
  induction runs with
  | nil => intro n rec h; simp [expectedSummaries] at h
  | cons r rest ih =>
    intro n rec h
    have h' : rec ∈ (if runKw r = "green" ∧ (runPD r).ge thr then
        [(⟨runSym r, runLow r, runHigh r, runDate r, runPD r,
          runKw r ++ "_" ++ Nat.repr (n + 1)⟩ : Summary)] else []) ++
          expectedSummaries thr (n + 1) rest := h
    rcases List.mem_append.mp h' with h1 | h1
    · split at h1
      · rcases List.mem_singleton.mp h1 with rfl
        exact ⟨r, List.mem_cons_self r rest, rfl⟩
      · exact absurd h1 (List.not_mem_nil rec)
    · rcases ih (n + 1) rec h1 with ⟨q, hq, hsym⟩
      exact ⟨q, List.mem_cons_of_mem r hq, hsym⟩

theorem expectedSummaries_length (thr : ℚ) (runs : List (List LabeledBar)) :
    ∀ n, (expectedSummaries thr n runs).length =
      (runs.filter (fun r => decide (runKw r = "green") && (runPD r).ge thr)).length := by
  induction runs with
  | nil => intro n; rfl
  | cons r rest ih =>
    intro n
    show ((if runKw r = "green" ∧ (runPD r).ge thr then _ else _) ++
      expectedSummaries thr (n + 1) rest).length = _
    rw [List.length_append, List.filter_cons]
    by_cases hcond : runKw r = "green" ∧ (runPD r).ge thr
    · rw [if_pos hcond, if_pos (by simp [hcond.1, hcond.2])]
      rw [List.length_singleton, List.length_cons, ih (n + 1)]
      omega
    · rw [if_neg hcond, if_neg (by
        intro hc
        rcases (Bool.and_eq_true _ _).mp hc with ⟨hcg, hcge⟩
        exact hcond ⟨by simpa using hcg, hcge⟩)]
      rw [List.length_nil, ih (n + 1)]
      omega

theorem PDiff.ge_mono (p : PDiff) (t1 t2 : ℚ) (h : t1 ≤ t2) (hge : p.ge t2 = true) :
    p.ge t1 = true := by
  cases p with
  | val q =>
    simp only [PDiff.ge, decide_eq_true_eq] at hge ⊢
    exact le_trans h hge
  | posInf => rfl
  | negInf => exact absurd hge (by simp [PDiff.ge])
  | nan => exact absurd hge (by simp [PDiff.ge])

/-- The rows of one group: `stock_data[stock_data['GroupID'] == group_id]`. -/
def groupRows (rows : List PDBar) (g : Nat) : List PDBar :=
  rows.filter (fun x => x.GroupID = g)

/-- Minimum of the `Low` column over one group's rows. -/
def groupLow (rows : List PDBar) (g : Nat) : ℚ :=
  qListMin ((groupRows rows g).map (·.bar.Low))

/-- Maximum of the `High` column over one group's rows. -/
def groupHigh (rows : List PDBar) (g : Nat) : ℚ :=
  qListMax ((groupRows rows g).map (·.bar.High))

/-- C1: for every well-formed, date-ordered bar sequence for one symbol,
the pipeline emits exactly one Summary Record per qualifying (green,
above-threshold) run — the output equals, record for record, the list
holding one record per qualifying run with low = minimum Low, high =
maximum High, earliest date = minimum date over the run's members and the
run's range percentage; its length is the number of qualifying runs, and
every record carries the common symbol. -/
theorem pipeline_one_summary_per_qualifying_run (thr : ℚ) (bars : List Bar) (s : String)
    (hsym : ∀ b ∈ bars, b.Symbol = s)
    (hord : List.Chain' (fun a b => a.date < b.date) bars) :
    runPipeline thr bars = expectedSummaries thr 0 (splitRuns (mark_keywords bars)) ∧
    (runPipeline thr bars).length = ((splitRuns (mark_keywords bars)).filter
      (fun r => decide (runKw r = "green") && (runPD r).ge thr)).length ∧
    ∀ rec ∈ runPipeline thr bars, rec.Symbol = s := by
  refine ⟨runPipeline_eq_expected thr bars, ?_, ?_⟩
  · rw [runPipeline_eq_expected]
    exact expectedSummaries_length thr _ 0
  · intro rec hrec
    rw [runPipeline_eq_expected] at hrec
    rcases expectedSummaries_symbol thr _ 0 rec hrec with ⟨r, hr, hsymr⟩
    have hne := splitRuns_ne_nil (mark_keywords bars) r hr
    cases hcr : r with
    | nil => exact absurd hcr hne
    | cons y t =>
      have hy : y ∈ mark_keywords bars := by
        have : y ∈ (splitRuns (mark_keywords bars)).flatten :=
          List.mem_flatten.mpr ⟨r, hr, by rw [hcr]; exact List.mem_cons_self y t⟩
        rwa [splitRuns_flatten] at this
      rcases List.mem_map.mp hy with ⟨b, hb, hyb⟩
      rw [hsymr, hcr]
      show y.bar.Symbol = s
      rw [← hyb]
      exact hsym b hb

/-- Witness for C1 at Scenario A's two up bars. -/
theorem pipeline_one_summary_per_qualifying_run_witness :
    runPipeline 20 [⟨1, 10, 12, 9, 11, "X"⟩, ⟨2, 11, 15, 10, 14, "X"⟩] =
      expectedSummaries 20 0 (splitRuns (mark_keywords
        [⟨1, 10, 12, 9, 11, "X"⟩, ⟨2, 11, 15, 10, 14, "X"⟩])) ∧
    (runPipeline 20 [⟨1, 10, 12, 9, 11, "X"⟩, ⟨2, 11, 15, 10, 14, "X"⟩]).length =
      ((splitRuns (mark_keywords [⟨1, 10, 12, 9, 11, "X"⟩, ⟨2, 11, 15, 10, 14, "X"⟩])).filter
        (fun r => decide (runKw r = "green") && (runPD r).ge 20)).length ∧
    ∀ rec ∈ runPipeline 20 [⟨1, 10, 12, 9, 11, "X"⟩, ⟨2, 11, 15, 10, 14, "X"⟩],
      rec.Symbol = "X" :=
  pipeline_one_summary_per_qualifying_run 20 _ "X" (by decide)
    (by simp [List.chain'_cons])

theorem survivors_map_strip (thr : ℚ) (bars : List Bar) :
    (remove_invalid_rows (identify_valid_groups thr
      (calculate_percentage_differences (assign_groups (mark_keywords bars))))).map
        (fun v => (⟨v.bar, v.Keyword, v.GroupID, v.Group, v.PercentageDifference⟩ : PDBar)) =
      (calculate_percentage_differences (assign_groups (mark_keywords bars))).filter
        (fun row => decide (row.Keyword = "green") && row.PercentageDifference.ge thr) := by
  rw [assign_groups_eq_annotate, calc_annotate _ 0 (splitRuns_ne_nil _),
    identify_annotateP thr _ 0 (goodRuns_splitRuns bars), remove_annotateV]
  exact keptBlocks_map_strip thr _ 0 (goodRuns_splitRuns bars)

/-- C2: a row survives the breakout filter exactly when its group is
green and its (broadcast) range percentage passes the threshold; rows of
non-qualifying groups are dropped entirely, with no marker retained. -/
theorem breakout_filter_keeps_exactly_qualifying_rows (thr : ℚ) (bars : List Bar) :
    (remove_invalid_rows (identify_valid_groups thr
      (calculate_percentage_differences (assign_groups (mark_keywords bars))))).map
        (fun v => (⟨v.bar, v.Keyword, v.GroupID, v.Group, v.PercentageDifference⟩ : PDBar)) =
      (calculate_percentage_differences (assign_groups (mark_keywords bars))).filter
        (fun row => decide (row.Keyword = "green") && row.PercentageDifference.ge thr) :=
  survivors_map_strip thr bars

/-- C3: run segmentation is a partition — the annotated rows are the
labeled bars in order, the maximal runs concatenate back to the input,
the run id increments exactly at direction changes, and a nonempty
sequence's first bar gets run id 1. -/
theorem run_segmentation_partition (bars : List Bar) :
    ((assign_groups (mark_keywords bars)).map
      (fun g => (⟨g.bar, g.Keyword⟩ : LabeledBar)) = mark_keywords bars) ∧
    ((splitRuns (mark_keywords bars)).flatten = mark_keywords bars) ∧
    List.Chain' (fun a b =>
      b.GroupID = if b.Keyword = a.Keyword then a.GroupID else a.GroupID + 1)
      (assign_groups (mark_keywords bars)) ∧
    (assign_groups (mark_keywords bars)).head?.map (·.GroupID) =
      (mark_keywords bars).head?.map (fun _ => 1) := by
  refine ⟨assignGo_map_labeled _ none 0, splitRuns_flatten _, assignGo_chain' _ none 0, ?_⟩
  cases bars with
  | nil => rfl
  | cons b bs => simp [mark_keywords, assign_groups, assignGo]

/-- C4: for every group whose minimum Low is nonzero, the evaluator
computes range percentage `(max High - min Low) / min Low * 100`, and
the value is broadcast identically to every member row of the group. -/
theorem range_evaluator_broadcast (bars : List Bar) (row : PDBar)
    (hrow : row ∈ calculate_percentage_differences (assign_groups (mark_keywords bars)))
    (hlo : groupLow (calculate_percentage_differences (assign_groups (mark_keywords bars)))
      row.GroupID ≠ 0) :
    row.PercentageDifference = PDiff.val
      ((groupHigh (calculate_percentage_differences (assign_groups (mark_keywords bars)))
          row.GroupID -
        groupLow (calculate_percentage_differences (assign_groups (mark_keywords bars)))
          row.GroupID) /
        groupLow (calculate_percentage_differences (assign_groups (mark_keywords bars)))
          row.GroupID * 100) ∧
    ∀ row' ∈ calculate_percentage_differences (assign_groups (mark_keywords bars)),
      row'.GroupID = row.GroupID → row'.PercentageDifference = row.PercentageDifference := by
  have hb : calculate_percentage_differences (assign_groups (mark_keywords bars)) =
      annotateP 0 (splitRuns (mark_keywords bars)) := by
    rw [assign_groups_eq_annotate, calc_annotate _ 0 (splitRuns_ne_nil _)]
  constructor
  · have hspec := annotateP_pd_spec _ 0 row (hb ▸ hrow)
    rw [hb] at hlo ⊢
    unfold groupLow groupRows at hlo
    unfold groupLow groupHigh groupRows
    rw [hspec]
    unfold rangePct
    rw [if_neg hlo]
  · intro row' hrow' heq
    have h1 := annotateP_pd_spec _ 0 row (hb ▸ hrow)
    have h2 := annotateP_pd_spec _ 0 row' (hb ▸ hrow')
    rw [h1, h2, heq]

/-- C5: the classifier marks a bar green exactly when open is strictly
below close; otherwise — including open equal to close — it marks red. -/
theorem direction_classifier_semantics (bars : List Bar) (lb : LabeledBar)
    (hlb : lb ∈ mark_keywords bars) :
    (lb.Keyword = "green" ↔ lb.bar.Open < lb.bar.Close) ∧
    (¬ lb.bar.Open < lb.bar.Close → lb.Keyword = "red") ∧
    (lb.bar.Open = lb.bar.Close → lb.Keyword = "red") := by
  rcases List.mem_map.mp hlb with ⟨b, _, heq⟩
  subst heq
  show (keywordOf b = "green" ↔ b.Open < b.Close) ∧ (¬ b.Open < b.Close → keywordOf b = "red") ∧
    (b.Open = b.Close → keywordOf b = "red")
  unfold keywordOf
  by_cases hoc : b.Open < b.Close
  · rw [if_pos hoc]
    exact ⟨⟨fun _ => hoc, fun _ => rfl⟩, fun hc => absurd hoc hc,
      fun heq2 => absurd hoc (by rw [heq2]; exact lt_irrefl _)⟩
  · rw [if_neg hoc]
    exact ⟨⟨fun hg => absurd hg (by decide), fun h => absurd h hoc⟩,
      fun _ => rfl, fun _ => rfl⟩

/-- Witness for C5 at a bar with open equal to close. -/
theorem direction_classifier_semantics_witness :
    ((⟨⟨1, 10, 11, 9, 10, "X"⟩, "red"⟩ : LabeledBar).Keyword = "green" ↔
      (⟨⟨1, 10, 11, 9, 10, "X"⟩, "red"⟩ : LabeledBar).bar.Open <
        (⟨⟨1, 10, 11, 9, 10, "X"⟩, "red"⟩ : LabeledBar).bar.Close) ∧
    (¬ (⟨⟨1, 10, 11, 9, 10, "X"⟩, "red"⟩ : LabeledBar).bar.Open <
        (⟨⟨1, 10, 11, 9, 10, "X"⟩, "red"⟩ : LabeledBar).bar.Close →
      (⟨⟨1, 10, 11, 9, 10, "X"⟩, "red"⟩ : LabeledBar).Keyword = "red") ∧
    ((⟨⟨1, 10, 11, 9, 10, "X"⟩, "red"⟩ : LabeledBar).bar.Open =
        (⟨⟨1, 10, 11, 9, 10, "X"⟩, "red"⟩ : LabeledBar).bar.Close →
      (⟨⟨1, 10, 11, 9, 10, "X"⟩, "red"⟩ : LabeledBar).Keyword = "red") :=
  direction_classifier_semantics [⟨1, 10, 11, 9, 10, "X"⟩] _ (by decide)

/-- Witness for C4 at a one-bar green run with low 10 and high 30. -/
theorem range_evaluator_broadcast_witness :
    (⟨⟨1, 10, 30, 10, 20, "B"⟩, "green", 1, "green_1",
        PDiff.val 200⟩ : PDBar).PercentageDifference = PDiff.val
      ((groupHigh (calculate_percentage_differences (assign_groups (mark_keywords
          [⟨1, 10, 30, 10, 20, "B"⟩])))
          (⟨⟨1, 10, 30, 10, 20, "B"⟩, "green", 1, "green_1", PDiff.val 200⟩ : PDBar).GroupID -
        groupLow (calculate_percentage_differences (assign_groups (mark_keywords
          [⟨1, 10, 30, 10, 20, "B"⟩])))
          (⟨⟨1, 10, 30, 10, 20, "B"⟩, "green", 1, "green_1", PDiff.val 200⟩ : PDBar).GroupID) /
        groupLow (calculate_percentage_differences (assign_groups (mark_keywords
          [⟨1, 10, 30, 10, 20, "B"⟩])))
          (⟨⟨1, 10, 30, 10, 20, "B"⟩, "green", 1, "green_1", PDiff.val 200⟩ : PDBar).GroupID * 100) ∧
    ∀ row' ∈ calculate_percentage_differences (assign_groups (mark_keywords
        [⟨1, 10, 30, 10, 20, "B"⟩])),
      row'.GroupID = (⟨⟨1, 10, 30, 10, 20, "B"⟩, "green", 1, "green_1",
        PDiff.val 200⟩ : PDBar).GroupID →
      row'.PercentageDifference = (⟨⟨1, 10, 30, 10, 20, "B"⟩, "green", 1, "green_1",
        PDiff.val 200⟩ : PDBar).PercentageDifference :=
  range_evaluator_broadcast [⟨1, 10, 30, 10, 20, "B"⟩] _
    (by
      rw [assign_groups_eq_annotate, calc_annotate _ 0 (splitRuns_ne_nil _)]
      norm_num [mark_keywords, keywordOf, splitRuns, annotateP, runPD, runLow, runHigh,
        qListMin, qListMax, rangePct]
      rfl)
    (by
      rw [assign_groups_eq_annotate, calc_annotate _ 0 (splitRuns_ne_nil _)]
      unfold groupLow groupRows
      norm_num [mark_keywords, keywordOf, splitRuns, annotateP, runPD, runLow, runHigh,
        qListMin, qListMax, rangePct])

/-- Counterexample to C6 as stated: a green run whose minimum Low is 0
is NOT excluded from the qualifying output — at threshold 20, and even
at threshold 1000, the pipeline emits a summary for it (its range
percentage is the `inf` sentinel, which passes every threshold). -/
theorem zero_low_run_not_excluded_counterexample :
    runPipeline 20 [⟨1, 1, 5, 0, 2, "X"⟩] = [⟨"X", 0, 5, 1, PDiff.posInf, "green_1"⟩] ∧
    runPipeline 1000 [⟨1, 1, 5, 0, 2, "X"⟩] ≠ [] := by
  have h20 : runPipeline 20 [⟨1, 1, 5, 0, 2, "X"⟩] =
      [⟨"X", 0, 5, 1, PDiff.posInf, "green_1"⟩] := by
    rw [runPipeline_eq_expected]
    norm_num [mark_keywords, keywordOf, splitRuns, expectedSummaries, runKw, runPD, runLow,
      runHigh, runDate, runSym, qListMin, qListMax, natListMin, rangePct, PDiff.ge]
    rfl
  have h1000 : runPipeline 1000 [⟨1, 1, 5, 0, 2, "X"⟩] =
      [⟨"X", 0, 5, 1, PDiff.posInf, "green_1"⟩] := by
    rw [runPipeline_eq_expected]
    norm_num [mark_keywords, keywordOf, splitRuns, expectedSummaries, runKw, runPD, runLow,
      runHigh, runDate, runSym, qListMin, qListMax, natListMin, rangePct, PDiff.ge]
    rfl
  refine ⟨h20, ?_⟩
  rw [h1000]
  simp

/-- C6 (amended): a group with minimum Low 0 and positive maximum High
does not fault — its range percentage is the positive-infinity sentinel
— but, contrary to the claim, a green such group is NOT excluded: its
rows survive the breakout filter for every threshold. -/
theorem zero_low_run_amended (bars : List Bar) (row : PDBar)
    (hrow : row ∈ calculate_percentage_differences (assign_groups (mark_keywords bars)))
    (hlo : groupLow (calculate_percentage_differences (assign_groups (mark_keywords bars)))
      row.GroupID = 0)
    (hhi : 0 < groupHigh (calculate_percentage_differences (assign_groups (mark_keywords bars)))
      row.GroupID) :
    row.PercentageDifference = PDiff.posInf ∧
    (row.Keyword = "green" → ∀ thr : ℚ,
      ∃ v ∈ remove_invalid_rows (identify_valid_groups thr
        (calculate_percentage_differences (assign_groups (mark_keywords bars)))),
        (⟨v.bar, v.Keyword, v.GroupID, v.Group, v.PercentageDifference⟩ : PDBar) = row) := by
  have hb : calculate_percentage_differences (assign_groups (mark_keywords bars)) =
      annotateP 0 (splitRuns (mark_keywords bars)) := by
    rw [assign_groups_eq_annotate, calc_annotate _ 0 (splitRuns_ne_nil _)]
  have hpd : row.PercentageDifference = PDiff.posInf := by
    have hspec := annotateP_pd_spec _ 0 row (hb ▸ hrow)
    rw [hb] at hlo hhi
    unfold groupLow groupRows at hlo
    unfold groupHigh groupRows at hhi
    rw [hspec, hlo]
    unfold rangePct
    rw [if_pos rfl, if_pos (by simpa using hhi)]
  refine ⟨hpd, ?_⟩
  intro hgreen thr
  have hmemfilter : row ∈ (calculate_percentage_differences
      (assign_groups (mark_keywords bars))).filter
        (fun r => decide (r.Keyword = "green") && r.PercentageDifference.ge thr) := by
    rw [List.mem_filter]
    refine ⟨hrow, ?_⟩
    rw [hgreen, hpd]
    simp [PDiff.ge]
  rw [← survivors_map_strip thr bars] at hmemfilter
  rcases List.mem_map.mp hmemfilter with ⟨v, hv, hveq⟩
  exact ⟨v, hv, hveq⟩

/-- Witness for the amended C6 at a one-bar green run with low 0. -/
theorem zero_low_run_amended_witness :
    (⟨⟨1, 1, 5, 0, 2, "X"⟩, "green", 1, "green_1",
        PDiff.posInf⟩ : PDBar).PercentageDifference = PDiff.posInf ∧
    ((⟨⟨1, 1, 5, 0, 2, "X"⟩, "green", 1, "green_1", PDiff.posInf⟩ : PDBar).Keyword = "green" →
      ∀ thr : ℚ,
      ∃ v ∈ remove_invalid_rows (identify_valid_groups thr
        (calculate_percentage_differences (assign_groups (mark_keywords
          [⟨1, 1, 5, 0, 2, "X"⟩])))),
        (⟨v.bar, v.Keyword, v.GroupID, v.Group, v.PercentageDifference⟩ : PDBar) =
          ⟨⟨1, 1, 5, 0, 2, "X"⟩, "green", 1, "green_1", PDiff.posInf⟩) :=
  zero_low_run_amended [⟨1, 1, 5, 0, 2, "X"⟩] _
    (by
      rw [assign_groups_eq_annotate, calc_annotate _ 0 (splitRuns_ne_nil _)]
      norm_num [mark_keywords, keywordOf, splitRuns, annotateP, runPD, runLow, runHigh,
        qListMin, qListMax, rangePct]
      rfl)
    (by
      rw [assign_groups_eq_annotate, calc_annotate _ 0 (splitRuns_ne_nil _)]
      unfold groupLow groupRows
      norm_num [mark_keywords, keywordOf, splitRuns, annotateP, runPD, runLow, runHigh,
        qListMin, qListMax, rangePct])
    (by
      rw [assign_groups_eq_annotate, calc_annotate _ 0 (splitRuns_ne_nil _)]
      unfold groupHigh groupRows
      norm_num [mark_keywords, keywordOf, splitRuns, annotateP, runPD, runLow, runHigh,
        qListMin, qListMax, rangePct])

/-- C7: raising the threshold never increases the number of qualifying
groups — both the number of emitted summaries and the length of the
`valid_groups` list are monotone non-increasing in the threshold. -/
theorem breakout_filter_threshold_monotone (bars : List Bar) (t1 t2 : ℚ) (h : t1 ≤ t2) :
    (runPipeline t2 bars).length ≤ (runPipeline t1 bars).length ∧
    (valid_groups t2 (calculate_percentage_differences
      (assign_groups (mark_keywords bars)))).length ≤
      (valid_groups t1 (calculate_percentage_differences
        (assign_groups (mark_keywords bars)))).length := by
  constructor
  · rw [runPipeline_eq_expected, runPipeline_eq_expected,
      expectedSummaries_length, expectedSummaries_length,
      ← List.countP_eq_length_filter, ← List.countP_eq_length_filter]
    apply List.countP_mono_left
    intro r _ hp
    rcases (Bool.and_eq_true _ _).mp hp with ⟨h1, h2⟩
    exact (Bool.and_eq_true _ _).mpr ⟨h1, PDiff.ge_mono _ t1 t2 h h2⟩
  · unfold valid_groups
    rw [← List.countP_eq_length_filter, ← List.countP_eq_length_filter]
    apply List.countP_mono_left
    intro name _ hp
    rcases (Bool.and_eq_true _ _).mp hp with ⟨h1, h2⟩
    exact (Bool.and_eq_true _ _).mpr ⟨h1, PDiff.ge_mono _ t1 t2 h h2⟩

/-- Witness for C7 at thresholds 10 and 20 on Scenario A's bars. -/
theorem breakout_filter_threshold_monotone_witness :
    (runPipeline 20 [⟨1, 10, 12, 9, 11, "X"⟩, ⟨2, 11, 15, 10, 14, "X"⟩]).length ≤
      (runPipeline 10 [⟨1, 10, 12, 9, 11, "X"⟩, ⟨2, 11, 15, 10, 14, "X"⟩]).length ∧
    (valid_groups 20 (calculate_percentage_differences (assign_groups (mark_keywords
      [⟨1, 10, 12, 9, 11, "X"⟩, ⟨2, 11, 15, 10, 14, "X"⟩])))).length ≤
      (valid_groups 10 (calculate_percentage_differences (assign_groups (mark_keywords
        [⟨1, 10, 12, 9, 11, "X"⟩, ⟨2, 11, 15, 10, 14, "X"⟩])))).length :=
  breakout_filter_threshold_monotone [⟨1, 10, 12, 9, 11, "X"⟩, ⟨2, 11, 15, 10, 14, "X"⟩]
    10 20 (by norm_num)

/-- C8: an empty bar series produces no summaries and no error, and
contributes nothing to the combined batch output. -/
theorem empty_series_yields_nothing (thr : ℚ) (rest : List (List Bar)) :
    runPipeline thr [] = [] ∧
    processSeries thr ([] :: rest) = processSeries thr rest :=
  ⟨rfl, rfl⟩

/-- Counterexample to C9 as stated: with a fetch that fails for symbol
`A` and succeeds for symbol `B` (whose bars yield one summary), the
orchestrator loop aborts with the error — symbol `B` is not processed
and no combined result containing its summary is produced. -/
theorem fetch_failure_aborts_batch_counterexample :
    mainLoop 20 (fun s => if s = "A" then Except.error "boom" else
      Except.ok [⟨1, 10, 30, 10, 20, "B"⟩]) ["A", "B"] = Except.error "boom" ∧
    runPipeline 20 [⟨1, 10, 30, 10, 20, "B"⟩] =
      [⟨"B", 10, 30, 1, PDiff.val 200, "green_1"⟩] := by
  constructor
  · simp [mainLoop]
  · rw [runPipeline_eq_expected]
    norm_num [mark_keywords, keywordOf, splitRuns, expectedSummaries, runKw, runPD, runLow,
      runHigh, runDate, runSym, qListMin, qListMax, natListMin, rangePct, PDiff.ge]
    rfl

/-- C9 (amended): the orchestrator loop has no per-symbol error
isolation — it returns the combined summaries only when every fetch
succeeds, and any fetch failure makes the whole batch return an error,
discarding all symbols' results. -/
theorem fetch_failure_amended (thr : ℚ) (fetch : String → Except String (List Bar))
    (symbols : List String) :
    ((∀ s ∈ symbols, (fetch s).isOk = true) →
      mainLoop thr fetch symbols = Except.ok (symbols.flatMap (fun s =>
        runPipeline thr ((fetch s).toOption.getD [])))) ∧
    ((∃ s ∈ symbols, (fetch s).isOk = false) →
      ∃ e, mainLoop thr fetch symbols = Except.error e) := by
  induction symbols with
  | nil =>
    refine ⟨fun _ => rfl, ?_⟩
    rintro ⟨s, hs, _⟩
    exact absurd hs (List.not_mem_nil s)
  | cons s ss ih =>
    constructor
    · intro hok
      have hoks : (fetch s).isOk = true := hok s (List.mem_cons_self s ss)
      cases hfs : fetch s with
      | error e => rw [hfs] at hoks; exact absurd hoks (by simp [Except.isOk, Except.toBool])
      | ok bars =>
        have hrest := ih.1 (fun q hq => hok q (List.mem_cons_of_mem s hq))
        show (match fetch s with
          | Except.error e => Except.error e
          | Except.ok bars => match mainLoop thr fetch ss with
            | Except.error e => Except.error e
            | Except.ok out => Except.ok (runPipeline thr bars ++ out)) = _
        rw [hfs, hrest, List.flatMap_cons, hfs]
        rfl
    · rintro ⟨s', hs', hbad⟩
      cases hfs : fetch s with
      | error e =>
        refine ⟨e, ?_⟩
        show (match fetch s with
          | Except.error e => Except.error e
          | Except.ok bars => match mainLoop thr fetch ss with
            | Except.error e => Except.error e
            | Except.ok out => Except.ok (runPipeline thr bars ++ out)) = _
        rw [hfs]
      | ok bars =>
        have hs'ss : s' ∈ ss := by
          rcases List.mem_cons.mp hs' with rfl | hmem
          · rw [hfs] at hbad; exact absurd hbad (by simp [Except.isOk, Except.toBool])
          · exact hmem
        rcases ih.2 ⟨s', hs'ss, hbad⟩ with ⟨e, he⟩
        refine ⟨e, ?_⟩
        show (match fetch s with
          | Except.error e => Except.error e
          | Except.ok bars => match mainLoop thr fetch ss with
            | Except.error e => Except.error e
            | Except.ok out => Except.ok (runPipeline thr bars ++ out)) = _
        rw [hfs, he]

/-- Witness for the amended C9: an all-success batch returns the
combined summaries, and a batch with a failing fetch returns an error. -/
theorem fetch_failure_amended_witness :
    mainLoop 20 (fun _ => Except.ok [⟨1, 10, 30, 10, 20, "B"⟩]) ["B"] =
      Except.ok (["B"].flatMap (fun s =>
        runPipeline 20 (((fun _ => Except.ok [⟨1, 10, 30, 10, 20, "B"⟩] :
          String → Except String (List Bar)) s).toOption.getD []))) ∧
    ∃ e, mainLoop 20 (fun s => if s = "A" then Except.error "boom" else
      Except.ok [⟨1, 10, 30, 10, 20, "B"⟩]) ["A", "B"] = Except.error e :=
  ⟨(fetch_failure_amended 20 _ ["B"]).1 (by
      intro s _
      rfl),
   (fetch_failure_amended 20 _ ["A", "B"]).2 ⟨"A", List.mem_cons_self _ _, rfl⟩⟩

/-- C10: the stages before summarization never alter the per-bar data —
each stage's rows project back, in order, to exactly its input rows
(only derived columns are added), and `remove_invalid_rows` returns a
sublist of its input (it only drops whole rows). -/
theorem stages_preserve_bar_columns (thr : ℚ) (bars : List Bar) :
    ((mark_keywords bars).map (·.bar) = bars) ∧
    (∀ rows : List LabeledBar, (assign_groups rows).map
      (fun g => (⟨g.bar, g.Keyword⟩ : LabeledBar)) = rows) ∧
    ((calculate_percentage_differences (assign_groups (mark_keywords bars))).map
      (fun p => (⟨p.bar, p.Keyword, p.GroupID, p.Group⟩ : GroupedBar)) =
        assign_groups (mark_keywords bars)) ∧
    (∀ rows : List PDBar, (identify_valid_groups thr rows).map
      (fun v => (⟨v.bar, v.Keyword, v.GroupID, v.Group, v.PercentageDifference⟩ : PDBar)) =
        rows) ∧
    (∀ rows : List VBar, (remove_invalid_rows rows).Sublist rows) := by
  refine ⟨?_, fun rows => assignGo_map_labeled rows none 0, ?_, ?_, ?_⟩
  · unfold mark_keywords
    rw [List.map_map]
    show bars.map id = bars
    exact List.map_id bars
  · rw [assign_groups_eq_annotate, calc_annotate _ 0 (splitRuns_ne_nil _)]
    exact annotateP_map_grouped _ 0
  · intro rows
    show (rows.map _).map _ = rows
    rw [List.map_map]
    show rows.map id = rows
    exact List.map_id rows
  · intro rows
    exact List.filter_sublist rows

/-- Sanity check: `uniqueFirst` keeps values in order of first occurrence,
as `Series.unique()` does. -/
theorem uniqueFirst_first_occurrence_order : uniqueFirst [3, 1, 3, 2, 1] = [3, 1, 2] := by
  decide

/-- Sanity check: `hasGreen` is Python's substring test for `'green'`. -/
theorem hasGreen_substring_semantics :
    hasGreen "green_12" = true ∧ hasGreen "red_7" = false ∧
      hasGreen "agreenb" = true ∧ hasGreen "" = false := by
  decide

/-- The pipeline as shipped runs at the module threshold of 20 percent. -/
theorem runPipelineDefault_eq (bars : List Bar) :
    runPipelineDefault bars = runPipeline 20 bars := rfl
